import Mathlib

set_option maxHeartbeats 1600000

/-!
Shallow embedding of the frag JIT compiler (src/lexer.rs, src/ast.rs,
src/parser.rs, src/codegen.rs) and proofs about the claims of its
specification.

Conventions of the embedding:
* The lexer works on `List Char`; the infinite trailing `Eof` stream of the
  Rust iterator is modelled by yielding `Eof` on empty input.
* Machine integers are `Int` with explicit wrapping modulo `2 ^ 64` where the
  generated code wraps.
* Panics (`expect`, `panic!`, `unreachable!`) and runtime traps are modelled
  by `none` / `Except.error`.
-/

/-- Tokens of the language, from `enum Token` in src/lexer.rs. -/
inductive Token where
  | Number (n : Int)
  | Bool (b : Bool)
  | Identifier (s : String)
  | Let
  | Plus
  | Minus
  | Star
  | Slash
  | Percent
  | EqualEqual
  | NotEqual
  | Less
  | LessEqual
  | Greater
  | GreaterEqual
  | AndAnd
  | OrOr
  | Not
  | Equal
  | LeftParen
  | RightParen
  | Comma
  | Semicolon
  | Eof
deriving DecidableEq, Repr

/-- Rust `char::is_whitespace` (the Unicode White_Space property), written out
for the code points below `0x100`.  Code points at and above `0x100` are not
modelled (the table maps them to `false`); every lexer theorem below either
uses concrete characters below `0x100` or carries hypotheses keeping the
characters it classifies below `0x100`, where this table is exact. -/
def is_whitespace (c : Char) : Bool :=
  decide (c.toNat = 9 ∨ c.toNat = 10 ∨ c.toNat = 11 ∨ c.toNat = 12 ∨ c.toNat = 13 ∨
    c.toNat = 32 ∨ c.toNat = 133 ∨ c.toNat = 160)

/-- Rust `char::is_ascii_digit`: the characters `'0'` through `'9'`. -/
def is_ascii_digit (c : Char) : Bool :=
  decide (48 ≤ c.toNat ∧ c.toNat ≤ 57)

/-- Rust `char::is_alphabetic` (the Unicode Alphabetic property), written out
for the code points below `0x100`: the ASCII letters plus, in Latin-1, `ª`,
`µ`, `º` and the letter ranges `À`–`Ö`, `Ø`–`ö`, `ø`–`ÿ` (U+00D7 `×` and
U+00F7 `÷` are not letters).  Code points at and above `0x100` are not
modelled, as for `is_whitespace`. -/
def is_alphabetic (c : Char) : Bool :=
  decide ((65 ≤ c.toNat ∧ c.toNat ≤ 90) ∨ (97 ≤ c.toNat ∧ c.toNat ≤ 122) ∨
    c.toNat = 170 ∨ c.toNat = 181 ∨ c.toNat = 186 ∨
    (192 ≤ c.toNat ∧ c.toNat ≤ 214) ∨ (216 ≤ c.toNat ∧ c.toNat ≤ 246) ∨
    (248 ≤ c.toNat ∧ c.toNat ≤ 255))

/-- Rust `char::is_alphanumeric` (Alphabetic plus the Unicode numeric
categories), written out for the code points below `0x100`: `is_alphabetic`
plus the ASCII digits and, in Latin-1, the numeric characters `²`, `³`, `¹`,
`¼`, `½`, `¾`. -/
def is_alphanumeric (c : Char) : Bool :=
  is_alphabetic c || is_ascii_digit c ||
    decide (c.toNat = 178 ∨ c.toNat = 179 ∨ c.toNat = 185 ∨
      c.toNat = 188 ∨ c.toNat = 189 ∨ c.toNat = 190)

/-- The spec's regex class `[A-Za-z_]` for the first identifier character. -/
def is_ascii_ident_start (c : Char) : Bool :=
  decide ((65 ≤ c.toNat ∧ c.toNat ≤ 90) ∨ (97 ≤ c.toNat ∧ c.toNat ≤ 122) ∨ c.toNat = 95)

/-- The spec's regex class `[A-Za-z0-9_]` for later identifier characters. -/
def is_ascii_ident_cont (c : Char) : Bool :=
  is_ascii_ident_start c || is_ascii_digit c

/-- The identifier-continuation test of src/lexer.rs line 164:
`d.is_alphanumeric() || d == '_'`. -/
def is_word_char (c : Char) : Bool :=
  is_alphanumeric c || c = '_'

/-- Skipping the rest of a line comment: the loop of src/lexer.rs lines 59-63
and 71-75 consumes characters up to and including the next newline (or the
whole rest of the input when no newline remains). -/
def skip_line (cs : List Char) : List Char :=
  (cs.dropWhile (fun c => c ≠ '\n')).drop 1

theorem skip_line_length_le (cs : List Char) : (skip_line cs).length ≤ cs.length := by
  have h1 := (cs.dropWhile_sublist (p := fun c => c ≠ '\n')).length_le
  simp only [skip_line, List.length_drop]
  omega

/-- `Lexer::skip_whitespace_and_comments` from src/lexer.rs lines 46-80. -/
def skip_whitespace_and_comments (cs : List Char) : List Char :=
  match cs with
  | [] => []
  | c :: rest =>
    if is_whitespace c then skip_whitespace_and_comments rest
    else if c = '/' then
      match rest with
      | '/' :: rest2 => skip_whitespace_and_comments (skip_line rest2)
      | _ => c :: rest
    else if c = '#' then skip_whitespace_and_comments (skip_line rest)
    else c :: rest
termination_by cs.length
decreasing_by
  · simp
  · have := skip_line_length_le rest2
    simp
    omega
  · have := skip_line_length_le rest
    simp
    omega

theorem skip_whitespace_and_comments_length_le (cs : List Char) :
    (skip_whitespace_and_comments cs).length ≤ cs.length := by
  induction cs using skip_whitespace_and_comments.induct with
  | case1 => simp [skip_whitespace_and_comments]
  | case2 c rest hw ih =>
    unfold skip_whitespace_and_comments
    rw [if_pos hw]
    simp only [List.length_cons]
    omega
  | case3 rest2 hw ih =>
    have h2 := skip_line_length_le rest2
    unfold skip_whitespace_and_comments
    rw [if_neg (by decide), if_pos rfl]
    show (skip_whitespace_and_comments (skip_line rest2)).length ≤ ('/' :: '/' :: rest2).length
    simp only [List.length_cons]
    omega
  | case4 rest hne hw =>
    unfold skip_whitespace_and_comments
    rw [if_neg (by decide), if_pos rfl]
    split
    · exact (hne _ rfl).elim
    · simp
  | case5 rest hw hs ih =>
    have h2 := skip_line_length_le rest
    unfold skip_whitespace_and_comments
    rw [if_neg (by decide), if_neg (by decide), if_pos rfl]
    simp only [List.length_cons]
    omega
  | case6 c rest hw hs hh =>
    unfold skip_whitespace_and_comments
    rw [if_neg hw, if_neg hs, if_neg hh]

/-- The keyword reclassification of src/lexer.rs lines 171-176. -/
def classify_word (s : String) : Token :=
  if s = "let" then .Let
  else if s = "true" then .Bool true
  else if s = "false" then .Bool false
  else .Identifier s

/-- The decimal value of a run of ASCII digits. -/
def digits_val (s : List Char) : Nat :=
  s.foldl (fun acc c => acc * 10 + (c.toNat - 48)) 0

/-- `str::parse::<i64>` applied to a nonempty run of ASCII digits (src/lexer.rs
line 159): the decimal value when it fits in `i64`, `none` (the `expect`
panic) on overflow. -/
def parse_i64 (s : List Char) : Option Int :=
  if digits_val s ≤ 9223372036854775807 then some (Int.ofNat (digits_val s)) else none

mutual

/-- `Lexer::next` from src/lexer.rs lines 86-185: skip whitespace and
comments, then recognise one token.  It returns the token and the remaining
input; `none` models the numeric-overflow panic.  The Rust iterator yields
`Some(Eof)` forever past the end of input, which the `[]` case of
`Lexer.next_core` models. -/
def Lexer.next (cs : List Char) : Option (Token × List Char) :=
  Lexer.next_core (skip_whitespace_and_comments cs)
termination_by 2 * cs.length + 1
decreasing_by
  have := skip_whitespace_and_comments_length_le cs
  omega

/-- The token-recognition `match` of `Lexer::next` (src/lexer.rs lines
89-184), applied to the input left after `skip_whitespace_and_comments`.
In the catch-all branch (lines 178-182) the `match` scrutinee has already
consumed the unknown character and the body consumes one more character
(`self.source.next()`) before recursing, hence `rest.drop 1`. -/
def Lexer.next_core (cs : List Char) : Option (Token × List Char) :=
  match cs with
  | [] => some (.Eof, [])
  | c :: rest =>
    if c = '+' then some (.Plus, rest)
    else if c = '-' then some (.Minus, rest)
    else if c = '*' then some (.Star, rest)
    else if c = '/' then some (.Slash, rest)
    else if c = '%' then some (.Percent, rest)
    else if c = '=' then
      if rest.head? = some '=' then some (.EqualEqual, rest.tail)
      else some (.Equal, rest)
    else if c = '!' then
      if rest.head? = some '=' then some (.NotEqual, rest.tail)
      else some (.Not, rest)
    else if c = '<' then
      if rest.head? = some '=' then some (.LessEqual, rest.tail)
      else some (.Less, rest)
    else if c = '>' then
      if rest.head? = some '=' then some (.GreaterEqual, rest.tail)
      else some (.Greater, rest)
    else if c = '&' then
      if rest.head? = some '&' then some (.AndAnd, rest.tail)
      else Lexer.next rest
    else if c = '|' then
      if rest.head? = some '|' then some (.OrOr, rest.tail)
      else Lexer.next rest
    else if c = '(' then some (.LeftParen, rest)
    else if c = ')' then some (.RightParen, rest)
    else if c = ',' then some (.Comma, rest)
    else if c = ';' then some (.Semicolon, rest)
    else if is_ascii_digit c then
      match parse_i64 (c :: rest.takeWhile is_ascii_digit) with
      | some n => some (.Number n, rest.dropWhile is_ascii_digit)
      | none => none
    else if is_alphabetic c || c = '_' then
      some (classify_word (String.mk (c :: rest.takeWhile is_word_char)),
        rest.dropWhile is_word_char)
    else
      Lexer.next (rest.drop 1)
termination_by 2 * cs.length
decreasing_by
  · simp only [List.length_cons]
    omega
  · simp only [List.length_cons]
    omega
  · simp only [List.length_cons, List.length_drop]
    omega

end

/-- Running the lexer to completion: the token stream of an input, up to and
including the first `Eof`.  `fuel` bounds the number of tokens produced
(`none` on exhaustion); `cs.length + 1` always suffices. -/
def Lexer.tokenize (fuel : Nat) (cs : List Char) : Option (List Token) :=
  match fuel with
  | 0 => none
  | fuel + 1 =>
    match Lexer.next cs with
    | none => none
    | some (t, rest) =>
      if t = .Eof then some [t]
      else
        match Lexer.tokenize fuel rest with
        | none => none
        | some ts => some (t :: ts)

/-- Expression AST from src/ast.rs (enum Expr). -/
inductive Expr where
  | Number (n : Int)
  | Bool (b : Bool)
  | Variable (name : String)
  | FunctionCall (name : String) (args : List Expr)
  | BinaryOp (op : Token) (left : Expr) (right : Expr)
  | UnaryOp (op : Token) (expr : Expr)
deriving Repr

/-- Statement AST from src/ast.rs (enum Stmt). -/
inductive Stmt where
  | ExprStmt (e : Expr)
  | LetDecl (name : String) (value : Expr)
deriving Repr

/-- A program: an ordered sequence of statements (src/ast.rs, struct Program). -/
structure Program where
  stmts : List Stmt
deriving Repr

/-- Two's-complement wrapping of an integer into the signed 64-bit range:
the effect of Cranelift's `iadd`, `isub`, `imul` instructions on `i64`
values. -/
def wrap64 (n : Int) : Int := (n + 2 ^ 63) % 2 ^ 64 - 2 ^ 63

/-- The signed 64-bit range: the values representable as an `i64`. -/
def In64 (n : Int) : Prop := -(2 ^ 63) ≤ n ∧ n < 2 ^ 63

/-- `HashMap::get` on the variable map (src/codegen.rs line 143).  The map is
modelled as an association list in which an insert prepends, so the first
match is the binding last written, as for `HashMap::insert`. -/
def lookup_var : List (String × Int) → String → Option Int
  | [], _ => none
  | (k, v) :: rest, name => if k = name then some v else lookup_var rest name

mutual

/-- Denotation of the straight-line instruction sequence that
`JITCompiler::codegen_expr` (src/codegen.rs lines 132-233) emits for an
expression: the computed `i64` value together with the list of integers the
emitted `print_i64` calls write, in order.  `none` models a panic during
code generation (undefined variable, unknown function, wrong `print` arity,
an operator token outside the operator subset) or a trap of the generated
code (`sdiv`/`srem` by zero, `sdiv` overflow).  Arithmetic instructions wrap
modulo `2 ^ 64`; comparisons are signed and zero-extend their 1-bit result;
`&&`/`||` compare each operand with zero and take the bitwise and/or of the
two bits — both operands are always evaluated. -/
def codegen_expr (vars : List (String × Int)) : Expr → Option (Int × List Int)
  | .Number n => some (n, [])
  | .Bool b => some (if b then 1 else 0, [])
  | .Variable name =>
    match lookup_var vars name with
    | some v => some (v, [])
    | none => none
  | .FunctionCall name args =>
    if name = "print" then
      match codegen_args vars args with
      | none => none
      | some (vals, out) =>
        match vals with
        | [v] => some (v, out ++ [v])
        | _ => none
    else none
  | .BinaryOp op left right =>
    match codegen_expr vars left with
    | none => none
    | some (l, lo) =>
      match codegen_expr vars right with
      | none => none
      | some (r, ro) =>
        match op with
        | .Plus => some (wrap64 (l + r), lo ++ ro)
        | .Minus => some (wrap64 (l - r), lo ++ ro)
        | .Star => some (wrap64 (l * r), lo ++ ro)
        | .Slash =>
          if r = 0 ∨ (l = -(2 ^ 63) ∧ r = -1) then none
          else some (Int.tdiv l r, lo ++ ro)
        | .Percent =>
          if r = 0 then none else some (Int.tmod l r, lo ++ ro)
        | .EqualEqual => some (if l = r then 1 else 0, lo ++ ro)
        | .NotEqual => some (if l = r then 0 else 1, lo ++ ro)
        | .Less => some (if l < r then 1 else 0, lo ++ ro)
        | .LessEqual => some (if l ≤ r then 1 else 0, lo ++ ro)
        | .Greater => some (if r < l then 1 else 0, lo ++ ro)
        | .GreaterEqual => some (if r ≤ l then 1 else 0, lo ++ ro)
        | .AndAnd => some (if l ≠ 0 ∧ r ≠ 0 then 1 else 0, lo ++ ro)
        | .OrOr => some (if l ≠ 0 ∨ r ≠ 0 then 1 else 0, lo ++ ro)
        | _ => none
  | .UnaryOp op e =>
    match codegen_expr vars e with
    | none => none
    | some (v, o) =>
      match op with
      | .Minus => some (wrap64 (v * -1), o)
      | .Not => some (if v = 0 then 1 else 0, o)
      | _ => none

/-- Left-to-right evaluation of a call's argument list (the `args.iter().map`
of src/codegen.rs lines 151-154): the argument values and the concatenated
print output. -/
def codegen_args (vars : List (String × Int)) :
    List Expr → Option (List Int × List Int)
  | [] => some ([], [])
  | e :: rest =>
    match codegen_expr vars e with
    | none => none
    | some (v, o) =>
      match codegen_args vars rest with
      | none => none
      | some (vs, os) => some (v :: vs, o ++ os)

end

/-- `JITCompiler::codegen_stmt` (src/codegen.rs lines 105-130): the updated
variable map, the statement's produced value, and the printed output.
An `ExprStmt` yields its expression's value; a `LetDecl` evaluates its
initialiser, stores it in a fresh stack slot recorded under the name
(prepending = overwriting the mapping), and yields the stored value. -/
def codegen_stmt (vars : List (String × Int)) :
    Stmt → Option (List (String × Int) × Int × List Int)
  | .ExprStmt e =>
    match codegen_expr vars e with
    | none => none
    | some (v, o) => some (vars, v, o)
  | .LetDecl name value =>
    match codegen_expr vars value with
    | none => none
    | some (v, o) => some ((name, v) :: vars, v, o)

/-- The statement loop of `compile_and_run` (src/codegen.rs lines 74-83):
fold `codegen_stmt` over the statements, tracking the variable map, the last
produced value, and the accumulated print output. -/
def run_stmts (vars : List (String × Int)) (last : Option Int) (out : List Int) :
    List Stmt → Option (List (String × Int) × Option Int × List Int)
  | [] => some (vars, last, out)
  | stmt :: rest =>
    match codegen_stmt vars stmt with
    | none => none
    | some (vars, v, o) => run_stmts vars (some v) (out ++ o) rest

/-- `JITCompiler::compile_and_run` (src/codegen.rs lines 53-103): lower all
statements into one block, then return the last produced value, or `0` if
the program is empty (`last_value.unwrap_or(iconst 0)`, lines 86-88).  The
result is the returned `i64` paired with everything printed; `none` models a
panic or trap. -/
def compile_and_run (prog : Program) : Option (Int × List Int) :=
  match run_stmts [] none [] prog.stmts with
  | none => none
  | some (_, last, out) => some (last.getD 0, out)

/-- Parser errors (src/parser.rs lines 9-13, enum CompilerError).  The Rust
variants store `format!`ted strings; the embedding stores the same strings,
produced by `Token.fmt` below. -/
inductive CompilerError where
  | UnexpectedToken (found : String)
  | ExpectedToken (expected : String) (found : String)
deriving DecidableEq, Repr

/-- Rust's `{:?}` debug formatting of a token, as used in the parser's error
messages. -/
def Token.fmt : Token → String
  | .Number n => "Number(" ++ toString n ++ ")"
  | .Bool b => "Bool(" ++ toString b ++ ")"
  | .Identifier s => "Identifier(\"" ++ s ++ "\")"
  | .Let => "Let"
  | .Plus => "Plus"
  | .Minus => "Minus"
  | .Star => "Star"
  | .Slash => "Slash"
  | .Percent => "Percent"
  | .EqualEqual => "EqualEqual"
  | .NotEqual => "NotEqual"
  | .Less => "Less"
  | .LessEqual => "LessEqual"
  | .Greater => "Greater"
  | .GreaterEqual => "GreaterEqual"
  | .AndAnd => "AndAnd"
  | .OrOr => "OrOr"
  | .Not => "Not"
  | .Equal => "Equal"
  | .LeftParen => "LeftParen"
  | .RightParen => "RightParen"
  | .Comma => "Comma"
  | .Semicolon => "Semicolon"
  | .Eof => "Eof"

/-- `Parser::peek` (src/parser.rs lines 43-45): the lookahead token.  The
token stream is the list of tokens before the first `Eof`; past its end the
lexer yields `Eof` forever, hence the default. -/
def Parser.peek (ts : List Token) : Token := ts.head?.getD .Eof

/-- `Parser::bump` (src/parser.rs lines 47-49): consume one token.  The
underlying lexer iterator never returns `None`, so the consumed token is
exactly `peek`. -/
def Parser.bump (ts : List Token) : Token × List Token := (Parser.peek ts, ts.drop 1)

/-- `Parser::consume` (src/parser.rs lines 51-67).  The `None` arm of the
Rust code (lines 61-66) is unreachable because `bump` always yields a
token. -/
def Parser.consume (expected : Token) (ts : List Token) :
    Except CompilerError (List Token) :=
  let (t, ts1) := Parser.bump ts
  if t = expected then .ok ts1
  else .error (.ExpectedToken expected.fmt t.fmt)

mutual

/-- The `while` loop of `Parser::parse_program` (src/parser.rs lines 70-80):
while the lookahead is not `Eof`, parse one statement, and, when the
lookahead after it is not `Eof`, consume the separating `Semicolon`.
`fuel` bounds the recursion depth of all parser functions; the fuel-0 error
is an artefact that cannot occur at the ample fuel values the theorems use —
every theorem below is conditioned on an `ok` result or uses a concrete
sufficient fuel. -/
def Parser.parse_program_loop (fuel : Nat) (ts : List Token) (stmts : List Stmt) :
    Except CompilerError Program :=
  match fuel with
  | 0 => .error (.UnexpectedToken "fuel")
  | fuel + 1 =>
    if Parser.peek ts = .Eof then .ok ⟨stmts⟩
    else
      match Parser.parse_stmt_no_semi fuel ts with
      | .error e => .error e
      | .ok (stmt, ts1) =>
        if Parser.peek ts1 = .Eof then Parser.parse_program_loop fuel ts1 (stmts ++ [stmt])
        else
          match Parser.consume .Semicolon ts1 with
          | .error e => .error e
          | .ok ts2 => Parser.parse_program_loop fuel ts2 (stmts ++ [stmt])

/-- `Parser::parse_stmt_no_semi` (src/parser.rs lines 82-88). -/
def Parser.parse_stmt_no_semi (fuel : Nat) (ts : List Token) :
    Except CompilerError (Stmt × List Token) :=
  match fuel with
  | 0 => .error (.UnexpectedToken "fuel")
  | fuel + 1 =>
    if Parser.peek ts = .Let then Parser.parse_let_decl_no_semi fuel ts
    else
      match Parser.parse_expr fuel ts with
      | .error e => .error e
      | .ok (e, ts1) => .ok (.ExprStmt e, ts1)

/-- `Parser::parse_let_decl_no_semi` (src/parser.rs lines 90-107). -/
def Parser.parse_let_decl_no_semi (fuel : Nat) (ts : List Token) :
    Except CompilerError (Stmt × List Token) :=
  match fuel with
  | 0 => .error (.UnexpectedToken "fuel")
  | fuel + 1 =>
    match Parser.consume .Let ts with
    | .error e => .error e
    | .ok ts1 =>
      let (t, ts2) := Parser.bump ts1
      match t with
      | .Identifier name =>
        match Parser.consume .Equal ts2 with
        | .error e => .error e
        | .ok ts3 =>
          match Parser.parse_expr fuel ts3 with
          | .error e => .error e
          | .ok (value, ts4) => .ok (.LetDecl name value, ts4)
      | t => .error (.ExpectedToken "Identifier" t.fmt)

/-- `Parser::parse_expr` (src/parser.rs lines 109-111). -/
def Parser.parse_expr (fuel : Nat) (ts : List Token) :
    Except CompilerError (Expr × List Token) :=
  match fuel with
  | 0 => .error (.UnexpectedToken "fuel")
  | fuel + 1 => Parser.parse_logical_or fuel ts

/-- `Parser::parse_logical_or` (src/parser.rs lines 113-125). -/
def Parser.parse_logical_or (fuel : Nat) (ts : List Token) :
    Except CompilerError (Expr × List Token) :=
  match fuel with
  | 0 => .error (.UnexpectedToken "fuel")
  | fuel + 1 =>
    match Parser.parse_logical_and fuel ts with
    | .error e => .error e
    | .ok (e, ts1) => Parser.parse_logical_or_loop fuel e ts1

/-- The `while matches!(self.peek(), Token::OrOr)` loop of
`parse_logical_or`. -/
def Parser.parse_logical_or_loop (fuel : Nat) (e : Expr) (ts : List Token) :
    Except CompilerError (Expr × List Token) :=
  match fuel with
  | 0 => .error (.UnexpectedToken "fuel")
  | fuel + 1 =>
    if Parser.peek ts = .OrOr then
      let (op, ts1) := Parser.bump ts
      match Parser.parse_logical_and fuel ts1 with
      | .error e2 => .error e2
      | .ok (rhs, ts2) => Parser.parse_logical_or_loop fuel (.BinaryOp op e rhs) ts2
    else .ok (e, ts)

/-- `Parser::parse_logical_and` (src/parser.rs lines 127-139). -/
def Parser.parse_logical_and (fuel : Nat) (ts : List Token) :
    Except CompilerError (Expr × List Token) :=
  match fuel with
  | 0 => .error (.UnexpectedToken "fuel")
  | fuel + 1 =>
    match Parser.parse_equality fuel ts with
    | .error e => .error e
    | .ok (e, ts1) => Parser.parse_logical_and_loop fuel e ts1

/-- The `while matches!(self.peek(), Token::AndAnd)` loop of
`parse_logical_and`. -/
def Parser.parse_logical_and_loop (fuel : Nat) (e : Expr) (ts : List Token) :
    Except CompilerError (Expr × List Token) :=
  match fuel with
  | 0 => .error (.UnexpectedToken "fuel")
  | fuel + 1 =>
    if Parser.peek ts = .AndAnd then
      let (op, ts1) := Parser.bump ts
      match Parser.parse_equality fuel ts1 with
      | .error e2 => .error e2
      | .ok (rhs, ts2) => Parser.parse_logical_and_loop fuel (.BinaryOp op e rhs) ts2
    else .ok (e, ts)

/-- `Parser::parse_equality` (src/parser.rs lines 141-153). -/
def Parser.parse_equality (fuel : Nat) (ts : List Token) :
    Except CompilerError (Expr × List Token) :=
  match fuel with
  | 0 => .error (.UnexpectedToken "fuel")
  | fuel + 1 =>
    match Parser.parse_comparison fuel ts with
    | .error e => .error e
    | .ok (e, ts1) => Parser.parse_equality_loop fuel e ts1

/-- The `while matches!(self.peek(), Token::EqualEqual | Token::NotEqual)`
loop of `parse_equality`. -/
def Parser.parse_equality_loop (fuel : Nat) (e : Expr) (ts : List Token) :
    Except CompilerError (Expr × List Token) :=
  match fuel with
  | 0 => .error (.UnexpectedToken "fuel")
  | fuel + 1 =>
    if Parser.peek ts = .EqualEqual ∨ Parser.peek ts = .NotEqual then
      let (op, ts1) := Parser.bump ts
      match Parser.parse_comparison fuel ts1 with
      | .error e2 => .error e2
      | .ok (rhs, ts2) => Parser.parse_equality_loop fuel (.BinaryOp op e rhs) ts2
    else .ok (e, ts)

/-- `Parser::parse_comparison` (src/parser.rs lines 155-170). -/
def Parser.parse_comparison (fuel : Nat) (ts : List Token) :
    Except CompilerError (Expr × List Token) :=
  match fuel with
  | 0 => .error (.UnexpectedToken "fuel")
  | fuel + 1 =>
    match Parser.parse_term fuel ts with
    | .error e => .error e
    | .ok (e, ts1) => Parser.parse_comparison_loop fuel e ts1

/-- The `while matches!(self.peek(), Less | LessEqual | Greater |
GreaterEqual)` loop of `parse_comparison`. -/
def Parser.parse_comparison_loop (fuel : Nat) (e : Expr) (ts : List Token) :
    Except CompilerError (Expr × List Token) :=
  match fuel with
  | 0 => .error (.UnexpectedToken "fuel")
  | fuel + 1 =>
    if Parser.peek ts = .Less ∨ Parser.peek ts = .LessEqual ∨
        Parser.peek ts = .Greater ∨ Parser.peek ts = .GreaterEqual then
      let (op, ts1) := Parser.bump ts
      match Parser.parse_term fuel ts1 with
      | .error e2 => .error e2
      | .ok (rhs, ts2) => Parser.parse_comparison_loop fuel (.BinaryOp op e rhs) ts2
    else .ok (e, ts)

/-- `Parser::parse_term` (src/parser.rs lines 172-184). -/
def Parser.parse_term (fuel : Nat) (ts : List Token) :
    Except CompilerError (Expr × List Token) :=
  match fuel with
  | 0 => .error (.UnexpectedToken "fuel")
  | fuel + 1 =>
    match Parser.parse_factor fuel ts with
    | .error e => .error e
    | .ok (e, ts1) => Parser.parse_term_loop fuel e ts1

/-- The `while matches!(self.peek(), Token::Plus | Token::Minus)` loop of
`parse_term`. -/
def Parser.parse_term_loop (fuel : Nat) (e : Expr) (ts : List Token) :
    Except CompilerError (Expr × List Token) :=
  match fuel with
  | 0 => .error (.UnexpectedToken "fuel")
  | fuel + 1 =>
    if Parser.peek ts = .Plus ∨ Parser.peek ts = .Minus then
      let (op, ts1) := Parser.bump ts
      match Parser.parse_factor fuel ts1 with
      | .error e2 => .error e2
      | .ok (rhs, ts2) => Parser.parse_term_loop fuel (.BinaryOp op e rhs) ts2
    else .ok (e, ts)

/-- `Parser::parse_factor` (src/parser.rs lines 186-198). -/
def Parser.parse_factor (fuel : Nat) (ts : List Token) :
    Except CompilerError (Expr × List Token) :=
  match fuel with
  | 0 => .error (.UnexpectedToken "fuel")
  | fuel + 1 =>
    match Parser.parse_unary fuel ts with
    | .error e => .error e
    | .ok (e, ts1) => Parser.parse_factor_loop fuel e ts1

/-- The `while matches!(self.peek(), Token::Star | Token::Slash |
Token::Percent)` loop of `parse_factor`. -/
def Parser.parse_factor_loop (fuel : Nat) (e : Expr) (ts : List Token) :
    Except CompilerError (Expr × List Token) :=
  match fuel with
  | 0 => .error (.UnexpectedToken "fuel")
  | fuel + 1 =>
    if Parser.peek ts = .Star ∨ Parser.peek ts = .Slash ∨ Parser.peek ts = .Percent then
      let (op, ts1) := Parser.bump ts
      match Parser.parse_unary fuel ts1 with
      | .error e2 => .error e2
      | .ok (rhs, ts2) => Parser.parse_factor_loop fuel (.BinaryOp op e rhs) ts2
    else .ok (e, ts)

/-- `Parser::parse_unary` (src/parser.rs lines 200-210). -/
def Parser.parse_unary (fuel : Nat) (ts : List Token) :
    Except CompilerError (Expr × List Token) :=
  match fuel with
  | 0 => .error (.UnexpectedToken "fuel")
  | fuel + 1 =>
    if Parser.peek ts = .Minus ∨ Parser.peek ts = .Not then
      let (op, ts1) := Parser.bump ts
      match Parser.parse_unary fuel ts1 with
      | .error e2 => .error e2
      | .ok (e, ts2) => .ok (.UnaryOp op e, ts2)
    else Parser.parse_primary fuel ts

/-- `Parser::parse_primary` (src/parser.rs lines 212-242). -/
def Parser.parse_primary (fuel : Nat) (ts : List Token) :
    Except CompilerError (Expr × List Token) :=
  match fuel with
  | 0 => .error (.UnexpectedToken "fuel")
  | fuel + 1 =>
    let (t, ts1) := Parser.bump ts
    match t with
    | .Number n => .ok (.Number n, ts1)
    | .Bool b => .ok (.Bool b, ts1)
    | .Identifier name =>
      if Parser.peek ts1 = .LeftParen then
        match Parser.consume .LeftParen ts1 with
        | .error e => .error e
        | .ok ts2 =>
          match (if Parser.peek ts2 = .RightParen then .ok ([], ts2)
                 else Parser.parse_args_loop fuel ts2 []) with
          | .error e => .error e
          | .ok (args, ts3) =>
            match Parser.consume .RightParen ts3 with
            | .error e => .error e
            | .ok ts4 => .ok (.FunctionCall name args, ts4)
      else .ok (.Variable name, ts1)
    | .LeftParen =>
      match Parser.parse_expr fuel ts1 with
      | .error e => .error e
      | .ok (e, ts2) =>
        match Parser.consume .RightParen ts2 with
        | .error e => .error e
        | .ok ts3 => .ok (e, ts3)
    | t => .error (.UnexpectedToken ("Some(" ++ t.fmt ++ ")"))

/-- The argument loop of `parse_primary` (src/parser.rs lines 221-227):
parse an expression, and continue after each comma. -/
def Parser.parse_args_loop (fuel : Nat) (ts : List Token) (args : List Expr) :
    Except CompilerError (List Expr × List Token) :=
  match fuel with
  | 0 => .error (.UnexpectedToken "fuel")
  | fuel + 1 =>
    match Parser.parse_expr fuel ts with
    | .error e => .error e
    | .ok (e, ts1) =>
      if Parser.peek ts1 = .Comma then
        match Parser.consume .Comma ts1 with
        | .error e2 => .error e2
        | .ok ts2 => Parser.parse_args_loop fuel ts2 (args ++ [e])
      else .ok (args ++ [e], ts1)

end

/-- `Parser::parse_program` (src/parser.rs lines 70-80): run the statement
loop on the token stream, starting from an empty statement list. -/
def Parser.parse_program (fuel : Nat) (ts : List Token) : Except CompilerError Program :=
  Parser.parse_program_loop fuel ts []

/-- The precedence tier of a binary-operator token, low to high:
`||` < `&&` < (`==`, `!=`) < (`<`, `<=`, `>`, `>=`) < (`+`, `-`) <
(`*`, `/`, `%`); `none` for tokens that are not binary operators. -/
def tier : Token → Option Nat
  | .OrOr => some 0
  | .AndAnd => some 1
  | .EqualEqual => some 2
  | .NotEqual => some 2
  | .Less => some 3
  | .LessEqual => some 3
  | .Greater => some 3
  | .GreaterEqual => some 3
  | .Plus => some 4
  | .Minus => some 4
  | .Star => some 5
  | .Slash => some 5
  | .Percent => some 5
  | _ => none

/-- The valid binary-operator subset for `BinaryOp.op`: the spec's set
{Plus, Minus, Star, Slash, Percent, EqualEqual, NotEqual, Less, LessEqual,
Greater, GreaterEqual, AndAnd, OrOr}. -/
def valid_bin_op (t : Token) : Bool :=
  match t with
  | .Plus | .Minus | .Star | .Slash | .Percent | .EqualEqual | .NotEqual
  | .Less | .LessEqual | .Greater | .GreaterEqual | .AndAnd | .OrOr => true
  | _ => false

/-- The valid unary-operator subset for `UnaryOp.op`: {Minus, Not}. -/
def valid_un_op (t : Token) : Bool :=
  match t with
  | .Minus | .Not => true
  | _ => false

mutual

/-- Every `BinaryOp` node's `op` is in `valid_bin_op` and every `UnaryOp`
node's `op` is in `valid_un_op`, throughout the expression tree. -/
def ops_valid : Expr → Bool
  | .Number _ => true
  | .Bool _ => true
  | .Variable _ => true
  | .FunctionCall _ args => ops_valid_list args
  | .BinaryOp op l r => valid_bin_op op && ops_valid l && ops_valid r
  | .UnaryOp op e => valid_un_op op && ops_valid e

/-- `ops_valid` on every expression of a list. -/
def ops_valid_list : List Expr → Bool
  | [] => true
  | e :: rest => ops_valid e && ops_valid_list rest

end

/-- `ops_valid` on the expression of a statement. -/
def stmt_ops_valid : Stmt → Bool
  | .ExprStmt e => ops_valid e
  | .LetDecl _ value => ops_valid value

/-- `stmt_ops_valid` on every statement of a program. -/
def program_ops_valid (p : Program) : Bool := p.stmts.all stmt_ops_valid

/-! ## Helper lemmas -/

theorem char_eq_of_toNat {c d : Char} (h : c.toNat = d.toNat) : c = d := by
  apply Char.ext
  apply UInt32.ext
  show c.val.toNat = _
  simpa [Char.toNat] using h

theorem skip_nop {c : Char} (tl : List Char) (hw : is_whitespace c = false)
    (hs : c ≠ '/') (hh : c ≠ '#') :
    skip_whitespace_and_comments (c :: tl) = c :: tl := by
  unfold skip_whitespace_and_comments
  rw [if_neg (by simp [hw]), if_neg hs, if_neg hh]

theorem Lexer.next_nil : Lexer.next [] = some (.Eof, []) := by
  unfold Lexer.next
  unfold skip_whitespace_and_comments
  unfold Lexer.next_core
  rfl

theorem takeWhile_append_all {p : Char → Bool} (l r : List Char)
    (hl : ∀ c ∈ l, p c = true) (hr : ∀ c, r.head? = some c → p c = false) :
    (l ++ r).takeWhile p = l ∧ (l ++ r).dropWhile p = r := by
  induction l with
  | nil =>
    simp only [List.nil_append]
    cases r with
    | nil => simp
    | cons a r' =>
      have := hr a rfl
      simp [List.takeWhile, List.dropWhile, this]
  | cons a l' ih =>
    have ha := hl a (by simp)
    have ih' := ih (fun c hc => hl c (by simp [hc]))
    simp [List.takeWhile_cons, List.dropWhile_cons, ha, ih'.1, ih'.2]

theorem Lexer.next_core_digit {c : Char} (rest : List Char)
    (h : is_ascii_digit c = true) :
    Lexer.next_core (c :: rest) =
      match parse_i64 (c :: rest.takeWhile is_ascii_digit) with
      | some n => some (.Number n, rest.dropWhile is_ascii_digit)
      | none => none := by
  have hb : 48 ≤ c.toNat ∧ c.toNat ≤ 57 := by simpa [is_ascii_digit] using h
  unfold Lexer.next_core
  rw [if_neg (fun he => absurd (he ▸ hb) (by decide)),
    if_neg (fun he => absurd (he ▸ hb) (by decide)),
    if_neg (fun he => absurd (he ▸ hb) (by decide)),
    if_neg (fun he => absurd (he ▸ hb) (by decide)),
    if_neg (fun he => absurd (he ▸ hb) (by decide)),
    if_neg (fun he => absurd (he ▸ hb) (by decide)),
    if_neg (fun he => absurd (he ▸ hb) (by decide)),
    if_neg (fun he => absurd (he ▸ hb) (by decide)),
    if_neg (fun he => absurd (he ▸ hb) (by decide)),
    if_neg (fun he => absurd (he ▸ hb) (by decide)),
    if_neg (fun he => absurd (he ▸ hb) (by decide)),
    if_neg (fun he => absurd (he ▸ hb) (by decide)),
    if_neg (fun he => absurd (he ▸ hb) (by decide)),
    if_neg (fun he => absurd (he ▸ hb) (by decide)),
    if_neg (fun he => absurd (he ▸ hb) (by decide)),
    if_pos h]

theorem Lexer.next_digit {c : Char} (rest : List Char)
    (h : is_ascii_digit c = true) :
    Lexer.next (c :: rest) =
      match parse_i64 (c :: rest.takeWhile is_ascii_digit) with
      | some n => some (.Number n, rest.dropWhile is_ascii_digit)
      | none => none := by
  have hb : 48 ≤ c.toNat ∧ c.toNat ≤ 57 := by simpa [is_ascii_digit] using h
  unfold Lexer.next
  rw [skip_nop rest (by simp [is_whitespace]; omega)
    (fun he => absurd (he ▸ hb) (by decide)) (fun he => absurd (he ▸ hb) (by decide))]
  exact Lexer.next_core_digit rest h

theorem Lexer.next_core_word {c : Char} (rest : List Char)
    (h : (is_alphabetic c || c = '_') = true) :
    Lexer.next_core (c :: rest) =
      some (classify_word (String.mk (c :: rest.takeWhile is_word_char)),
        rest.dropWhile is_word_char) := by
  have hb : (65 ≤ c.toNat ∧ c.toNat ≤ 90) ∨ (97 ≤ c.toNat ∧ c.toNat ≤ 122) ∨
      c.toNat = 170 ∨ c.toNat = 181 ∨ c.toNat = 186 ∨
      (192 ≤ c.toNat ∧ c.toNat ≤ 214) ∨ (216 ≤ c.toNat ∧ c.toNat ≤ 246) ∨
      (248 ≤ c.toNat ∧ c.toNat ≤ 255) ∨ c.toNat = 95 := by
    rcases Bool.or_eq_true_iff.mp h with h1 | h1
    · have := by simpa [is_alphabetic] using h1
      tauto
    · have : c = '_' := by simpa using h1
      subst this
      right; right; right; right; right; right; right; right
      rfl
  have hd : is_ascii_digit c = false := by
    by_contra hne
    have h2 : is_ascii_digit c = true := by
      cases hx : is_ascii_digit c
      · exact absurd hx hne
      · rfl
    have := by simpa [is_ascii_digit] using h2
    omega
  unfold Lexer.next_core
  rw [if_neg (fun he => absurd (he ▸ hb) (by decide)),
    if_neg (fun he => absurd (he ▸ hb) (by decide)),
    if_neg (fun he => absurd (he ▸ hb) (by decide)),
    if_neg (fun he => absurd (he ▸ hb) (by decide)),
    if_neg (fun he => absurd (he ▸ hb) (by decide)),
    if_neg (fun he => absurd (he ▸ hb) (by decide)),
    if_neg (fun he => absurd (he ▸ hb) (by decide)),
    if_neg (fun he => absurd (he ▸ hb) (by decide)),
    if_neg (fun he => absurd (he ▸ hb) (by decide)),
    if_neg (fun he => absurd (he ▸ hb) (by decide)),
    if_neg (fun he => absurd (he ▸ hb) (by decide)),
    if_neg (fun he => absurd (he ▸ hb) (by decide)),
    if_neg (fun he => absurd (he ▸ hb) (by decide)),
    if_neg (fun he => absurd (he ▸ hb) (by decide)),
    if_neg (fun he => absurd (he ▸ hb) (by decide)),
    if_neg (by simp [hd]), if_pos h]

theorem Lexer.next_word {c : Char} (rest : List Char)
    (h : (is_alphabetic c || c = '_') = true) :
    Lexer.next (c :: rest) =
      some (classify_word (String.mk (c :: rest.takeWhile is_word_char)),
        rest.dropWhile is_word_char) := by
  have hb : (65 ≤ c.toNat ∧ c.toNat ≤ 90) ∨ (97 ≤ c.toNat ∧ c.toNat ≤ 122) ∨
      c.toNat = 170 ∨ c.toNat = 181 ∨ c.toNat = 186 ∨
      (192 ≤ c.toNat ∧ c.toNat ≤ 214) ∨ (216 ≤ c.toNat ∧ c.toNat ≤ 246) ∨
      (248 ≤ c.toNat ∧ c.toNat ≤ 255) ∨ c.toNat = 95 := by
    rcases Bool.or_eq_true_iff.mp h with h1 | h1
    · have := by simpa [is_alphabetic] using h1
      tauto
    · have : c = '_' := by simpa using h1
      subst this
      right; right; right; right; right; right; right; right
      rfl
  unfold Lexer.next
  rw [skip_nop rest (by simp [is_whitespace]; omega)
    (fun he => absurd (he ▸ hb) (by decide)) (fun he => absurd (he ▸ hb) (by decide))]
  exact Lexer.next_core_word rest h

theorem Lexer.next_unknown {c : Char} (tl : List Char)
    (hw : is_whitespace c = false)
    (hp : ∀ d ∈ ['+', '-', '*', '/', '%', '=', '!', '<', '>', '&', '|',
      '(', ')', ',', ';', '#'], c ≠ d)
    (hd : is_ascii_digit c = false)
    (ha : (is_alphabetic c || c = '_') = false) :
    Lexer.next (c :: tl) = Lexer.next (tl.drop 1) := by
  have h0 : Lexer.next (c :: tl) = Lexer.next_core (c :: tl) := by
    unfold Lexer.next
    rw [skip_nop tl hw (hp '/' (by simp)) (hp '#' (by simp))]
  rw [h0]
  unfold Lexer.next_core
  rw [if_neg (hp '+' (by simp)), if_neg (hp '-' (by simp)), if_neg (hp '*' (by simp)),
    if_neg (hp '/' (by simp)), if_neg (hp '%' (by simp)), if_neg (hp '=' (by simp)),
    if_neg (hp '!' (by simp)), if_neg (hp '<' (by simp)), if_neg (hp '>' (by simp)),
    if_neg (hp '&' (by simp)), if_neg (hp '|' (by simp)), if_neg (hp '(' (by simp)),
    if_neg (hp ')' (by simp)), if_neg (hp ',' (by simp)), if_neg (hp ';' (by simp)),
    if_neg (by simp [hd]), if_neg (by simp [ha])]


theorem ident_start_word {c : Char} (hc : is_ascii_ident_start c = true) :
    (is_alphabetic c || c = '_') = true := by
  have hb : (65 ≤ c.toNat ∧ c.toNat ≤ 90) ∨ (97 ≤ c.toNat ∧ c.toNat ≤ 122) ∨
      c.toNat = 95 := by simpa [is_ascii_ident_start] using hc
  rcases hb with hb | hb | hb
  · have : is_alphabetic c = true := by simp [is_alphabetic]; omega
    simp [this]
  · have : is_alphabetic c = true := by simp [is_alphabetic]; omega
    simp [this]
  · have : c = '_' := char_eq_of_toNat (by rw [hb]; rfl)
    simp [this]

theorem ident_cont_word {d : Char} (hd : is_ascii_ident_cont d = true) :
    is_word_char d = true := by
  have hb : (65 ≤ d.toNat ∧ d.toNat ≤ 90) ∨ (97 ≤ d.toNat ∧ d.toNat ≤ 122) ∨
      d.toNat = 95 ∨ (48 ≤ d.toNat ∧ d.toNat ≤ 57) := by
    have := by simpa [is_ascii_ident_cont, is_ascii_ident_start, is_ascii_digit] using hd
    tauto
  rcases hb with hb | hb | hb | hb
  · have : is_alphabetic d = true := by simp [is_alphabetic]; omega
    simp [is_word_char, is_alphanumeric, this]
  · have : is_alphabetic d = true := by simp [is_alphabetic]; omega
    simp [is_word_char, is_alphanumeric, this]
  · have : d = '_' := char_eq_of_toNat (by rw [hb]; rfl)
    simp [is_word_char, this]
  · have : is_ascii_digit d = true := by simp [is_ascii_digit]; omega
    simp [is_word_char, is_alphanumeric, this]

/-! ## Claim theorems: lexer -/

/-- Claim C3 — behaviour of the code at the failing input: on `"@1"` the
lexer drops the unknown character `'@'` *and* the immediately following
character `'1'` (src/lexer.rs lines 178-182 consume one extra character
after the `match` already consumed the unknown one), so tokenization yields
only `Eof`; the input with just the unknown character removed, `"1"`, would
yield `Number 1` then `Eof` instead, so more than the one unknown character
is dropped. -/
theorem c3_unknown_char_drops_following_char :
    Lexer.tokenize 3 ['@', '1'] = some [.Eof] ∧
    Lexer.tokenize 3 ['1'] = some [.Number 1, .Eof] := by
  have h1 : Lexer.next ['@', '1'] = Lexer.next [] := by
    have h := Lexer.next_unknown (c := '@') ['1'] (by decide) (by decide) (by decide)
      (by decide)
    simpa using h
  have h2 : Lexer.next ['1'] = some (.Number 1, []) := by
    have h := Lexer.next_digit (c := '1') [] (by decide)
    simpa [parse_i64, digits_val] using h
  constructor
  · simp [Lexer.tokenize, h1, Lexer.next_nil]
  · simp [Lexer.tokenize, h2, Lexer.next_nil]

/-- Claim C7: lexing a maximal run of ASCII digits yields `Number` with
exactly its decimal value when that value is at most `INT64_MAX`
(9223372036854775807), and is a fatal lexer error (a panic, modelled as
`none`) exactly when the value exceeds `INT64_MAX`. -/
theorem c7_digit_run_value_and_overflow (ds rest : List Char) (hne : ds ≠ [])
    (hds : ∀ c ∈ ds, is_ascii_digit c = true)
    (hrest : ∀ c, rest.head? = some c → is_ascii_digit c = false) :
    (digits_val ds ≤ 9223372036854775807 →
      Lexer.next (ds ++ rest) = some (.Number (Int.ofNat (digits_val ds)), rest)) ∧
    (9223372036854775807 < digits_val ds → Lexer.next (ds ++ rest) = none) := by
  match ds, hne with
  | d :: dtl, _ =>
    have hd := hds d (by simp)
    have htl : ∀ c ∈ dtl, is_ascii_digit c = true := fun c hc => hds c (by simp [hc])
    have hTD := takeWhile_append_all (p := is_ascii_digit) dtl rest htl hrest
    have hnx := Lexer.next_digit (c := d) (dtl ++ rest) hd
    rw [hTD.1, hTD.2] at hnx
    rw [List.cons_append, hnx]
    constructor
    · intro hle
      rw [show parse_i64 (d :: dtl) = some (Int.ofNat (digits_val (d :: dtl))) from by
        unfold parse_i64; rw [if_pos hle]]
    · intro hgt
      rw [show parse_i64 (d :: dtl) = none from by
        unfold parse_i64; rw [if_neg (by omega)]]

/-- Claim C8, amended part: on ASCII input the identifier tokens are exactly
the spec's regex `[A-Za-z_][A-Za-z0-9_]*` — a maximal run starting with an
ASCII letter or underscore and continuing with ASCII letters, digits or
underscores lexes to `classify_word` of that run (the identifier, with
`let`/`true`/`false` reclassified), leaving exactly the rest.  The
hypothesis on the following character uses the code's real continuation
test `is_word_char` (Unicode alphanumeric or underscore) and keeps it below
`0x100`, where the embedding of the Unicode tables is exact. -/
theorem c8_ascii_identifier_runs (c : Char) (cs rest : List Char)
    (hc : is_ascii_ident_start c = true)
    (hcs : ∀ d ∈ cs, is_ascii_ident_cont d = true)
    (hrest : ∀ d, rest.head? = some d → d.toNat < 256 ∧ is_word_char d = false) :
    Lexer.next (c :: cs ++ rest) = some (classify_word (String.mk (c :: cs)), rest) := by
  have hw := ident_start_word hc
  have hstep := Lexer.next_word (c := c) (cs ++ rest) hw
  have hTD := takeWhile_append_all (p := is_word_char) cs rest
    (fun d hd => ident_cont_word (hcs d hd)) (fun d hd => (hrest d hd).2)
  rw [hTD.1, hTD.2] at hstep
  exact hstep

/-- Claim C8, counterexample: the non-ASCII letter `'é'` (U+00E9, which is
Unicode-alphabetic, hence accepted by `char::is_alphabetic` at src/lexer.rs
line 161) begins an identifier token, although it is outside the claim's
ASCII class `[A-Za-z_]`: the claim that only ASCII characters can begin or
continue an identifier is false. -/
theorem c8_counterexample_non_ascii_identifier :
    Lexer.next ['é'] = some (.Identifier "é", []) ∧
    is_ascii_ident_start 'é' = false := by
  constructor
  · rw [Lexer.next_word ([] : List Char) (by decide)]
    decide
  · decide

/-! ## Claim theorems: generated-code semantics -/

theorem run_stmts_append (xs ys : List Stmt) (vars : List (String × Int))
    (last : Option Int) (out : List Int) :
    run_stmts vars last out (xs ++ ys) =
      match run_stmts vars last out xs with
      | none => none
      | some (vars2, last2, out2) => run_stmts vars2 last2 out2 ys := by
  induction xs generalizing vars last out with
  | nil => simp [run_stmts]
  | cons s xs ih =>
    simp only [List.cons_append, run_stmts]
    cases codegen_stmt vars s with
    | none => rfl
    | some r =>
      obtain ⟨vars2, v, o⟩ := r
      exact ih vars2 (some v) (out ++ o)

/-- Claim C1: for every program that compiles and runs without a panic or
trap, `compile_and_run` returns the value of the last statement — evaluated,
under the expression semantics of `codegen_expr`, in the variable map
accumulated by the preceding statements, a `LetDecl`'s value being the
stored initial value (`codegen_stmt`) — and the empty program returns 0. -/
theorem c1_compile_and_run_last_value :
    compile_and_run ⟨[]⟩ = some (0, []) ∧
    ∀ (first : List Stmt) (lastStmt : Stmt) (vars : List (String × Int))
      (lv : Option Int) (out : List Int) (vars2 : List (String × Int))
      (v : Int) (o : List Int),
      run_stmts [] none [] first = some (vars, lv, out) →
      codegen_stmt vars lastStmt = some (vars2, v, o) →
      compile_and_run ⟨first ++ [lastStmt]⟩ = some (v, out ++ o) := by
  constructor
  · rfl
  · intro first lastStmt vars lv out vars2 v o h1 h2
    unfold compile_and_run
    rw [run_stmts_append, h1]
    simp only [run_stmts, h2]
    rfl

theorem codegen_print_call (vars : List (String × Int)) (e : Expr) (v : Int)
    (o : List Int) (h : codegen_expr vars e = some (v, o)) :
    codegen_expr vars (.FunctionCall "print" [e]) = some (v, o ++ [v]) := by
  unfold codegen_expr codegen_args
  rw [h]
  simp [codegen_args]

/-- Claim C4: `&&` and `||` evaluate both operands — no short-circuit.  With
a `print` call on each side, both prints emit output (first the left's, then
the right's) regardless of either operand's value, and the result is the 0/1
encoding of the boolean and/or of `(e1 ≠ 0)` and `(e2 ≠ 0)`. -/
theorem c4_no_short_circuit (vars : List (String × Int)) (e1 e2 : Expr)
    (v1 v2 : Int) (o1 o2 : List Int)
    (h1 : codegen_expr vars e1 = some (v1, o1))
    (h2 : codegen_expr vars e2 = some (v2, o2)) :
    codegen_expr vars (.BinaryOp .AndAnd (.FunctionCall "print" [e1])
        (.FunctionCall "print" [e2])) =
      some (if v1 ≠ 0 ∧ v2 ≠ 0 then 1 else 0, (o1 ++ [v1]) ++ (o2 ++ [v2])) ∧
    codegen_expr vars (.BinaryOp .OrOr (.FunctionCall "print" [e1])
        (.FunctionCall "print" [e2])) =
      some (if v1 ≠ 0 ∨ v2 ≠ 0 then 1 else 0, (o1 ++ [v1]) ++ (o2 ++ [v2])) := by
  have hp1 := codegen_print_call vars e1 v1 o1 h1
  have hp2 := codegen_print_call vars e2 v2 o2 h2
  constructor
  · unfold codegen_expr
    rw [hp1, hp2]
  · unfold codegen_expr
    rw [hp1, hp2]

/-- Claim C6: every expression whose top-level operator is a comparison
(`==`, `!=`, `<`, `<=`, `>`, `>=`) or unary `!` evaluates to 0 or 1, and the
boolean literals lower to the constants 1 and 0. -/
theorem c6_booleans_are_zero_or_one :
    (∀ (vars : List (String × Int)) (op : Token) (l r : Expr) (v : Int) (o : List Int),
      (op = .EqualEqual ∨ op = .NotEqual ∨ op = .Less ∨ op = .LessEqual ∨
        op = .Greater ∨ op = .GreaterEqual) →
      codegen_expr vars (.BinaryOp op l r) = some (v, o) → v = 0 ∨ v = 1) ∧
    (∀ (vars : List (String × Int)) (e : Expr) (v : Int) (o : List Int),
      codegen_expr vars (.UnaryOp .Not e) = some (v, o) → v = 0 ∨ v = 1) ∧
    (∀ (vars : List (String × Int)) (b : Bool),
      codegen_expr vars (.Bool b) = some (if b then 1 else 0, [])) := by
  refine ⟨?_, ?_, ?_⟩
  · intro vars op l r v o hop h
    unfold codegen_expr at h
    cases hl : codegen_expr vars l with
    | none => rw [hl] at h; exact absurd h (by simp)
    | some pl =>
      obtain ⟨lv, lo⟩ := pl
      rw [hl] at h
      cases hr : codegen_expr vars r with
      | none => rw [hr] at h; exact absurd h (by simp)
      | some pr =>
        obtain ⟨rv, ro⟩ := pr
        rw [hr] at h
        rcases hop with hop | hop | hop | hop | hop | hop <;> subst hop <;>
          simp only [] at h <;> split at h <;> (cases h; simp)
  · intro vars e v o h
    unfold codegen_expr at h
    cases he : codegen_expr vars e with
    | none => rw [he] at h; exact absurd h (by simp)
    | some pe =>
      obtain ⟨ev, eo⟩ := pe
      rw [he] at h
      simp only [] at h
      split at h <;> (cases h; simp)
  · intro vars b
    rfl

/-- Claim C10: unary negation is lowered as multiplication by `-1`, the
arithmetic operators `+`, `-`, `*` wrap in two's complement modulo `2 ^ 64`,
and negating `INT64_MIN` — the expression `-(-9223372036854775807 - 1)`,
with `INT64_MIN` itself reached by nested negation of a literal — yields
`INT64_MIN` again rather than an error. -/
theorem c10_twos_complement_wrapping :
    (∀ (vars : List (String × Int)) (e : Expr) (v : Int) (o : List Int),
      codegen_expr vars e = some (v, o) →
      codegen_expr vars (.UnaryOp .Minus e) = some (wrap64 (v * -1), o)) ∧
    (∀ a b : Int, In64 a → In64 b →
      codegen_expr [] (.BinaryOp .Plus (.Number a) (.Number b)) =
        some (wrap64 (a + b), []) ∧
      codegen_expr [] (.BinaryOp .Minus (.Number a) (.Number b)) =
        some (wrap64 (a - b), []) ∧
      codegen_expr [] (.BinaryOp .Star (.Number a) (.Number b)) =
        some (wrap64 (a * b), [])) ∧
    codegen_expr [] (.UnaryOp .Minus (.BinaryOp .Minus
        (.UnaryOp .Minus (.Number 9223372036854775807)) (.Number 1))) =
      some (-9223372036854775808, []) := by
  refine ⟨?_, ?_, ?_⟩
  · intro vars e v o h
    unfold codegen_expr
    rw [h]
  · intro a b _ _
    refine ⟨?_, ?_, ?_⟩ <;> (unfold codegen_expr; rfl)
  · decide

/-! ## Claim theorems: parser -/

/-- Claim C5: all binary operators are left-associative within their
precedence tier — for `a op1 b op2 c` with `tier op1 = k1`, `tier op2 = k2`,
the parse is left-nested `(a op1 b) op2 c` whenever `k2 ≤ k1` (in particular
whenever the tiers are equal), and right-nested `a op1 (b op2 c)` whenever
`k1 < k2`; the tiers order `||` < `&&` < equality < comparison < additive <
multiplicative, so `1 + 2 * 3` parses as `1 + (2 * 3)`. -/
theorem c5_left_assoc_and_precedence :
    (∀ (a b c : Int) (op1 op2 : Token) (k1 k2 : Nat),
      tier op1 = some k1 → tier op2 = some k2 →
      (k2 ≤ k1 →
        Parser.parse_expr 20 [.Number a, op1, .Number b, op2, .Number c] =
          .ok (.BinaryOp op2 (.BinaryOp op1 (.Number a) (.Number b)) (.Number c), [])) ∧
      (k1 < k2 →
        Parser.parse_expr 20 [.Number a, op1, .Number b, op2, .Number c] =
          .ok (.BinaryOp op1 (.Number a) (.BinaryOp op2 (.Number b) (.Number c)), []))) ∧
    Parser.parse_expr 20 [.Number 1, .Plus, .Number 2, .Star, .Number 3] =
      .ok (.BinaryOp .Plus (.Number 1) (.BinaryOp .Star (.Number 2) (.Number 3)), []) := by
  constructor
  · intro a b c op1 op2 k1 k2 h1 h2
    cases op1 <;> cases op2 <;> simp only [tier] at h1 h2 <;>
      first
      | exact Option.noConfusion h1
      | exact Option.noConfusion h2
      | (cases h1 <;> cases h2 <;>
          exact ⟨fun _ => rfl, fun hk => absurd hk (by omega)⟩)
      | (cases h1 <;> cases h2 <;>
          exact ⟨fun hk => absurd hk (by omega), fun _ => rfl⟩)
  · rfl

/-- Claim C2, counterexample: the token stream of the well-formed statement
`1` followed by a trailing semicolon and `Eof` is *accepted* by
`parse_program` — the trailing semicolon is consumed as if it separated
statements and the loop then stops at `Eof` — whereas the claim says this
stream is rejected with a parse error. -/
theorem c2_counterexample_trailing_semicolon_accepted :
    Parser.parse_program 20 [.Number 1, .Semicolon] =
      .ok ⟨[.ExprStmt (.Number 1)]⟩ := rfl

theorem ops_valid_list_append (xs : List Expr) (e : Expr) :
    ops_valid_list (xs ++ [e]) = (ops_valid_list xs && ops_valid e) := by
  induction xs with
  | nil => simp [ops_valid_list]
  | cons x xs ih => simp [ops_valid_list, ih, Bool.and_assoc]

/-- Operator validity of everything the parser's expression and statement
functions return, proved for all fuels at once by induction on the fuel. -/
theorem parser_ops_valid (fuel : Nat) :
    (∀ ts r ts1, Parser.parse_stmt_no_semi fuel ts = .ok (r, ts1) →
      stmt_ops_valid r = true) ∧
    (∀ ts r ts1, Parser.parse_let_decl_no_semi fuel ts = .ok (r, ts1) →
      stmt_ops_valid r = true) ∧
    (∀ ts r ts1, Parser.parse_expr fuel ts = .ok (r, ts1) → ops_valid r = true) ∧
    (∀ ts r ts1, Parser.parse_logical_or fuel ts = .ok (r, ts1) → ops_valid r = true) ∧
    (∀ e ts r ts1, ops_valid e = true →
      Parser.parse_logical_or_loop fuel e ts = .ok (r, ts1) → ops_valid r = true) ∧
    (∀ ts r ts1, Parser.parse_logical_and fuel ts = .ok (r, ts1) → ops_valid r = true) ∧
    (∀ e ts r ts1, ops_valid e = true →
      Parser.parse_logical_and_loop fuel e ts = .ok (r, ts1) → ops_valid r = true) ∧
    (∀ ts r ts1, Parser.parse_equality fuel ts = .ok (r, ts1) → ops_valid r = true) ∧
    (∀ e ts r ts1, ops_valid e = true →
      Parser.parse_equality_loop fuel e ts = .ok (r, ts1) → ops_valid r = true) ∧
    (∀ ts r ts1, Parser.parse_comparison fuel ts = .ok (r, ts1) → ops_valid r = true) ∧
    (∀ e ts r ts1, ops_valid e = true →
      Parser.parse_comparison_loop fuel e ts = .ok (r, ts1) → ops_valid r = true) ∧
    (∀ ts r ts1, Parser.parse_term fuel ts = .ok (r, ts1) → ops_valid r = true) ∧
    (∀ e ts r ts1, ops_valid e = true →
      Parser.parse_term_loop fuel e ts = .ok (r, ts1) → ops_valid r = true) ∧
    (∀ ts r ts1, Parser.parse_factor fuel ts = .ok (r, ts1) → ops_valid r = true) ∧
    (∀ e ts r ts1, ops_valid e = true →
      Parser.parse_factor_loop fuel e ts = .ok (r, ts1) → ops_valid r = true) ∧
    (∀ ts r ts1, Parser.parse_unary fuel ts = .ok (r, ts1) → ops_valid r = true) ∧
    (∀ ts r ts1, Parser.parse_primary fuel ts = .ok (r, ts1) → ops_valid r = true) ∧
    (∀ ts args r ts1, ops_valid_list args = true →
      Parser.parse_args_loop fuel ts args = .ok (r, ts1) → ops_valid_list r = true) := by
  induction fuel with
  | zero =>
    refine ⟨?_, ?_, ?_, ?_, ?_, ?_, ?_, ?_, ?_, ?_, ?_, ?_, ?_, ?_, ?_, ?_, ?_, ?_⟩ <;>
      · intros
        simp_all [Parser.parse_stmt_no_semi, Parser.parse_let_decl_no_semi,
          Parser.parse_expr, Parser.parse_logical_or, Parser.parse_logical_or_loop,
          Parser.parse_logical_and, Parser.parse_logical_and_loop,
          Parser.parse_equality, Parser.parse_equality_loop,
          Parser.parse_comparison, Parser.parse_comparison_loop,
          Parser.parse_term, Parser.parse_term_loop,
          Parser.parse_factor, Parser.parse_factor_loop,
          Parser.parse_unary, Parser.parse_primary, Parser.parse_args_loop]
  | succ fuel ih =>
    obtain ⟨ih_stmt, ih_let, ih_expr, ih_or, ih_orl, ih_and, ih_andl, ih_eq, ih_eql,
      ih_cmp, ih_cmpl, ih_term, ih_terml, ih_fac, ih_facl, ih_un, ih_pr, ih_args⟩ := ih
    refine ⟨?_, ?_, ?_, ?_, ?_, ?_, ?_, ?_, ?_, ?_, ?_, ?_, ?_, ?_, ?_, ?_, ?_, ?_⟩
    · intro ts r ts1 h
      simp only [Parser.parse_stmt_no_semi] at h
      by_cases hp : Parser.peek ts = .Let
      · rw [if_pos hp] at h
        exact ih_let ts r ts1 h
      · rw [if_neg hp] at h
        cases he : Parser.parse_expr fuel ts with
        | error e => rw [he] at h; exact absurd h (by simp)
        | ok p =>
          obtain ⟨e, ts2⟩ := p
          rw [he] at h
          cases h
          exact ih_expr _ _ _ he
    · intro ts r ts1 h
      simp only [Parser.parse_let_decl_no_semi, Parser.bump] at h
      cases hc : Parser.consume .Let ts with
      | error e => rw [hc] at h; exact absurd h (by simp)
      | ok tsa =>
        simp only [hc] at h
        cases hpk : Parser.peek tsa <;> simp only [hpk] at h <;>
          try exact Except.noConfusion h
        case Identifier name =>
          cases hce : Parser.consume .Equal (tsa.drop 1) with
          | error e => rw [hce] at h; exact absurd h (by simp)
          | ok tsb =>
            simp only [hce] at h
            cases he : Parser.parse_expr fuel tsb with
            | error e => rw [he] at h; exact absurd h (by simp)
            | ok p =>
              obtain ⟨value, tsc⟩ := p
              simp only [he] at h
              cases h
              exact ih_expr _ _ _ he
    · intro ts r ts1 h
      simp only [Parser.parse_expr] at h
      exact ih_or ts r ts1 h
    · intro ts r ts1 h
      simp only [Parser.parse_logical_or] at h
      cases h1 : Parser.parse_logical_and fuel ts with
      | error e => rw [h1] at h; exact absurd h (by simp)
      | ok p =>
        obtain ⟨e, ts2⟩ := p
        rw [h1] at h
        exact ih_orl e ts2 r ts1 (ih_and ts e ts2 h1) h
    · intro e ts r ts1 hv h
      simp only [Parser.parse_logical_or_loop, Parser.bump] at h
      by_cases hp : Parser.peek ts = .OrOr
      · rw [if_pos hp] at h
        cases h1 : Parser.parse_logical_and fuel (ts.drop 1) with
        | error e2 => rw [h1] at h; exact absurd h (by simp)
        | ok p =>
          obtain ⟨rhs, ts2⟩ := p
          rw [h1] at h
          refine ih_orl _ ts2 r ts1 ?_ h
          have hrhs := ih_and (ts.drop 1) rhs ts2 h1
          simp [ops_valid, hv, hrhs, hp, valid_bin_op]
      · rw [if_neg hp] at h
        cases h
        exact hv
    · intro ts r ts1 h
      simp only [Parser.parse_logical_and] at h
      cases h1 : Parser.parse_equality fuel ts with
      | error e => rw [h1] at h; exact absurd h (by simp)
      | ok p =>
        obtain ⟨e, ts2⟩ := p
        rw [h1] at h
        exact ih_andl e ts2 r ts1 (ih_eq ts e ts2 h1) h
    · intro e ts r ts1 hv h
      simp only [Parser.parse_logical_and_loop, Parser.bump] at h
      by_cases hp : Parser.peek ts = .AndAnd
      · rw [if_pos hp] at h
        cases h1 : Parser.parse_equality fuel (ts.drop 1) with
        | error e2 => rw [h1] at h; exact absurd h (by simp)
        | ok p =>
          obtain ⟨rhs, ts2⟩ := p
          rw [h1] at h
          refine ih_andl _ ts2 r ts1 ?_ h
          have hrhs := ih_eq (ts.drop 1) rhs ts2 h1
          simp [ops_valid, hv, hrhs, hp, valid_bin_op]
      · rw [if_neg hp] at h
        cases h
        exact hv
    · intro ts r ts1 h
      simp only [Parser.parse_equality] at h
      cases h1 : Parser.parse_comparison fuel ts with
      | error e => rw [h1] at h; exact absurd h (by simp)
      | ok p =>
        obtain ⟨e, ts2⟩ := p
        rw [h1] at h
        exact ih_eql e ts2 r ts1 (ih_cmp ts e ts2 h1) h
    · intro e ts r ts1 hv h
      simp only [Parser.parse_equality_loop, Parser.bump] at h
      by_cases hp : Parser.peek ts = .EqualEqual ∨ Parser.peek ts = .NotEqual
      · rw [if_pos hp] at h
        cases h1 : Parser.parse_comparison fuel (ts.drop 1) with
        | error e2 => rw [h1] at h; exact absurd h (by simp)
        | ok p =>
          obtain ⟨rhs, ts2⟩ := p
          rw [h1] at h
          refine ih_eql _ ts2 r ts1 ?_ h
          have hrhs := ih_cmp (ts.drop 1) rhs ts2 h1
          rcases hp with hp | hp <;> simp [ops_valid, hv, hrhs, hp, valid_bin_op]
      · rw [if_neg hp] at h
        cases h
        exact hv
    · intro ts r ts1 h
      simp only [Parser.parse_comparison] at h
      cases h1 : Parser.parse_term fuel ts with
      | error e => rw [h1] at h; exact absurd h (by simp)
      | ok p =>
        obtain ⟨e, ts2⟩ := p
        rw [h1] at h
        exact ih_cmpl e ts2 r ts1 (ih_term ts e ts2 h1) h
    · intro e ts r ts1 hv h
      simp only [Parser.parse_comparison_loop, Parser.bump] at h
      by_cases hp : Parser.peek ts = .Less ∨ Parser.peek ts = .LessEqual ∨
        Parser.peek ts = .Greater ∨ Parser.peek ts = .GreaterEqual
      · rw [if_pos hp] at h
        cases h1 : Parser.parse_term fuel (ts.drop 1) with
        | error e2 => rw [h1] at h; exact absurd h (by simp)
        | ok p =>
          obtain ⟨rhs, ts2⟩ := p
          rw [h1] at h
          refine ih_cmpl _ ts2 r ts1 ?_ h
          have hrhs := ih_term (ts.drop 1) rhs ts2 h1
          rcases hp with hp | hp | hp | hp <;> simp [ops_valid, hv, hrhs, hp, valid_bin_op]
      · rw [if_neg hp] at h
        cases h
        exact hv
    · intro ts r ts1 h
      simp only [Parser.parse_term] at h
      cases h1 : Parser.parse_factor fuel ts with
      | error e => rw [h1] at h; exact absurd h (by simp)
      | ok p =>
        obtain ⟨e, ts2⟩ := p
        rw [h1] at h
        exact ih_terml e ts2 r ts1 (ih_fac ts e ts2 h1) h
    · intro e ts r ts1 hv h
      simp only [Parser.parse_term_loop, Parser.bump] at h
      by_cases hp : Parser.peek ts = .Plus ∨ Parser.peek ts = .Minus
      · rw [if_pos hp] at h
        cases h1 : Parser.parse_factor fuel (ts.drop 1) with
        | error e2 => rw [h1] at h; exact absurd h (by simp)
        | ok p =>
          obtain ⟨rhs, ts2⟩ := p
          rw [h1] at h
          refine ih_terml _ ts2 r ts1 ?_ h
          have hrhs := ih_fac (ts.drop 1) rhs ts2 h1
          rcases hp with hp | hp <;> simp [ops_valid, hv, hrhs, hp, valid_bin_op]
      · rw [if_neg hp] at h
        cases h
        exact hv
    · intro ts r ts1 h
      simp only [Parser.parse_factor] at h
      cases h1 : Parser.parse_unary fuel ts with
      | error e => rw [h1] at h; exact absurd h (by simp)
      | ok p =>
        obtain ⟨e, ts2⟩ := p
        rw [h1] at h
        exact ih_facl e ts2 r ts1 (ih_un ts e ts2 h1) h
    · intro e ts r ts1 hv h
      simp only [Parser.parse_factor_loop, Parser.bump] at h
      by_cases hp : Parser.peek ts = .Star ∨ Parser.peek ts = .Slash ∨
        Parser.peek ts = .Percent
      · rw [if_pos hp] at h
        cases h1 : Parser.parse_unary fuel (ts.drop 1) with
        | error e2 => rw [h1] at h; exact absurd h (by simp)
        | ok p =>
          obtain ⟨rhs, ts2⟩ := p
          rw [h1] at h
          refine ih_facl _ ts2 r ts1 ?_ h
          have hrhs := ih_un (ts.drop 1) rhs ts2 h1
          rcases hp with hp | hp | hp <;> simp [ops_valid, hv, hrhs, hp, valid_bin_op]
      · rw [if_neg hp] at h
        cases h
        exact hv
    · intro ts r ts1 h
      simp only [Parser.parse_unary, Parser.bump] at h
      by_cases hp : Parser.peek ts = .Minus ∨ Parser.peek ts = .Not
      · rw [if_pos hp] at h
        cases h1 : Parser.parse_unary fuel (ts.drop 1) with
        | error e2 => rw [h1] at h; exact absurd h (by simp)
        | ok p =>
          obtain ⟨e, ts2⟩ := p
          rw [h1] at h
          cases h
          have he := ih_un _ _ _ h1
          rcases hp with hp | hp <;> simp [ops_valid, valid_un_op, hp, he]
      · rw [if_neg hp] at h
        exact ih_pr ts r ts1 h
    · intro ts r ts1 h
      simp only [Parser.parse_primary, Parser.bump] at h
      cases hpk : Parser.peek ts <;> simp only [hpk] at h <;>
        try exact Except.noConfusion h
      case Number n => cases h; rfl
      case Bool b => cases h; rfl
      case Identifier name =>
        by_cases hlp : Parser.peek (ts.drop 1) = .LeftParen
        · rw [if_pos hlp] at h
          cases hc : Parser.consume .LeftParen (ts.drop 1) with
          | error e => rw [hc] at h; exact absurd h (by simp)
          | ok ts2 =>
            simp only [hc] at h
            by_cases hrp : Parser.peek ts2 = .RightParen
            · simp only [if_pos hrp] at h
              cases hcr : Parser.consume .RightParen ts2 with
              | error e => rw [hcr] at h; exact absurd h (by simp)
              | ok ts3 =>
                simp only [hcr] at h
                cases h
                rfl
            · simp only [if_neg hrp] at h
              cases ha : Parser.parse_args_loop fuel ts2 [] with
              | error e => rw [ha] at h; exact absurd h (by simp)
              | ok p =>
                obtain ⟨args, ts3⟩ := p
                simp only [ha] at h
                cases hcr : Parser.consume .RightParen ts3 with
                | error e => rw [hcr] at h; exact absurd h (by simp)
                | ok ts4 =>
                  simp only [hcr] at h
                  cases h
                  have := ih_args ts2 [] args ts3 rfl ha
                  simpa [ops_valid] using this
        · rw [if_neg hlp] at h
          cases h
          rfl
      case LeftParen =>
        cases he : Parser.parse_expr fuel (ts.drop 1) with
        | error e => rw [he] at h; exact absurd h (by simp)
        | ok p =>
          obtain ⟨e, ts2⟩ := p
          simp only [he] at h
          cases hcr : Parser.consume .RightParen ts2 with
          | error e2 => rw [hcr] at h; exact absurd h (by simp)
          | ok ts3 =>
            simp only [hcr] at h
            cases h
            exact ih_expr _ _ _ he
    · intro ts args r ts1 hargs h
      simp only [Parser.parse_args_loop] at h
      cases he : Parser.parse_expr fuel ts with
      | error e => rw [he] at h; exact absurd h (by simp)
      | ok p =>
        obtain ⟨e, ts2⟩ := p
        simp only [he] at h
        have hev := ih_expr ts e ts2 he
        by_cases hp : Parser.peek ts2 = .Comma
        · rw [if_pos hp] at h
          cases hc : Parser.consume .Comma ts2 with
          | error e2 => rw [hc] at h; exact absurd h (by simp)
          | ok ts3 =>
            simp only [hc] at h
            exact ih_args ts3 (args ++ [e]) r ts1
              (by rw [ops_valid_list_append]; simp [hargs, hev]) h
        · rw [if_neg hp] at h
          cases h
          rw [ops_valid_list_append]
          simp [hargs, hev]

theorem parse_program_loop_ops_valid (fuel : Nat) :
    ∀ ts acc prog, (∀ s ∈ acc, stmt_ops_valid s = true) →
      Parser.parse_program_loop fuel ts acc = .ok prog →
      program_ops_valid prog = true := by
  induction fuel with
  | zero =>
    intro ts acc prog hacc h
    exact absurd h (by simp [Parser.parse_program_loop])
  | succ fuel ih =>
    intro ts acc prog hacc h
    simp only [Parser.parse_program_loop] at h
    by_cases hp : Parser.peek ts = .Eof
    · rw [if_pos hp] at h
      cases h
      simpa [program_ops_valid, List.all_eq_true] using hacc
    · rw [if_neg hp] at h
      cases h1 : Parser.parse_stmt_no_semi fuel ts with
      | error e => rw [h1] at h; exact absurd h (by simp)
      | ok p =>
        obtain ⟨stmt, ts1⟩ := p
        simp only [h1] at h
        have hs := (parser_ops_valid fuel).1 ts stmt ts1 h1
        have hacc2 : ∀ s ∈ acc ++ [stmt], stmt_ops_valid s = true := by
          intro s hsm
          rcases List.mem_append.mp hsm with hh | hh
          · exact hacc s hh
          · simp only [List.mem_singleton] at hh
            subst hh
            exact hs
        by_cases hp1 : Parser.peek ts1 = .Eof
        · rw [if_pos hp1] at h
          exact ih ts1 (acc ++ [stmt]) prog hacc2 h
        · rw [if_neg hp1] at h
          cases hc : Parser.consume .Semicolon ts1 with
          | error e => rw [hc] at h; exact absurd h (by simp)
          | ok ts2 =>
            simp only [hc] at h
            exact ih ts2 (acc ++ [stmt]) prog hacc2 h

/-- Claim C9: in every AST the parser returns successfully, every
`BinaryOp` node's `op` is one of {Plus, Minus, Star, Slash, Percent,
EqualEqual, NotEqual, Less, LessEqual, Greater, GreaterEqual, AndAnd, OrOr}
and every `UnaryOp` node's `op` is one of {Minus, Not}. -/
theorem c9_parser_operator_invariant (fuel : Nat) (ts : List Token) (prog : Program)
    (h : Parser.parse_program fuel ts = .ok prog) :
    program_ops_valid prog = true :=
  parse_program_loop_ops_valid fuel ts [] prog (by simp) h

/-! ## Token-stream extension lemmas for the trailing-semicolon analysis -/

theorem peek_append_of_ne_nil {ts : List Token} (sfx : List Token) (h : ts ≠ []) :
    Parser.peek (ts ++ sfx) = Parser.peek ts := by
  cases ts with
  | nil => exact absurd rfl h
  | cons t ts => rfl

theorem drop_one_append {ts : List Token} (sfx : List Token) (h : ts ≠ []) :
    (ts ++ sfx).drop 1 = ts.drop 1 ++ sfx := by
  cases ts with
  | nil => exact absurd rfl h
  | cons t ts => rfl

/-- A lookahead test against a token other than `Semicolon` and `Eof` is not
changed by appending a trailing semicolon: on the empty stream both sides
fail (the left sees `Semicolon`, the right `Eof`), on a nonempty stream the
lookahead is the same. -/
theorem peek_eq_iff_append_semi (ts : List Token) (tok : Token)
    (hs : tok ≠ .Semicolon) (he : tok ≠ .Eof) :
    (Parser.peek (ts ++ [.Semicolon]) = tok) ↔ (Parser.peek ts = tok) := by
  cases ts with
  | nil =>
    constructor
    · intro h
      exact absurd h.symm hs
    · intro h
      exact absurd h.symm he
  | cons t ts => exact Iff.rfl

theorem consume_ok_inv {tok : Token} {ts ts1 : List Token}
    (h : Parser.consume tok ts = .ok ts1) :
    Parser.peek ts = tok ∧ ts1 = ts.drop 1 := by
  simp only [Parser.consume, Parser.bump] at h
  by_cases hp : Parser.peek ts = tok
  · rw [if_pos hp] at h
    cases h
    exact ⟨hp, rfl⟩
  · rw [if_neg hp] at h
    exact absurd h (by simp)

theorem consume_append_semi {tok : Token} {ts ts1 : List Token}
    (he : tok ≠ .Eof)
    (h : Parser.consume tok ts = .ok ts1) :
    Parser.consume tok (ts ++ [.Semicolon]) = .ok (ts1 ++ [.Semicolon]) := by
  obtain ⟨hp, hd⟩ := consume_ok_inv h
  have hne : ts ≠ [] := by
    intro hnil
    subst hnil
    exact absurd hp.symm he
  subst hd
  simp only [Parser.consume, Parser.bump]
  rw [peek_append_of_ne_nil _ hne, if_pos hp, drop_one_append _ hne]

/-- Appending one trailing semicolon to the token stream does not disturb
any successful run of the statement- and expression-level parser functions:
the same value is parsed and the semicolon is left in the remainder, which
is moreover a suffix of the input stream.  Proved for all fuels at once by
induction on the fuel.  (A semicolon is matched by no expression-level
lookahead, so it acts exactly like the `Eof` the original run saw.) -/
theorem parser_extend_semi (fuel : Nat) :
    (∀ ts a ts1, Parser.parse_stmt_no_semi fuel ts = .ok (a, ts1) →
      Parser.parse_stmt_no_semi fuel (ts ++ [.Semicolon]) = .ok (a, ts1 ++ [.Semicolon]) ∧
        ts1 <:+ ts) ∧
    (∀ ts a ts1, Parser.parse_let_decl_no_semi fuel ts = .ok (a, ts1) →
      Parser.parse_let_decl_no_semi fuel (ts ++ [.Semicolon]) =
        .ok (a, ts1 ++ [.Semicolon]) ∧ ts1 <:+ ts) ∧
    (∀ ts a ts1, Parser.parse_expr fuel ts = .ok (a, ts1) →
      Parser.parse_expr fuel (ts ++ [.Semicolon]) = .ok (a, ts1 ++ [.Semicolon]) ∧
        ts1 <:+ ts) ∧
    (∀ ts a ts1, Parser.parse_logical_or fuel ts = .ok (a, ts1) →
      Parser.parse_logical_or fuel (ts ++ [.Semicolon]) = .ok (a, ts1 ++ [.Semicolon]) ∧
        ts1 <:+ ts) ∧
    (∀ e ts a ts1, Parser.parse_logical_or_loop fuel e ts = .ok (a, ts1) →
      Parser.parse_logical_or_loop fuel e (ts ++ [.Semicolon]) =
        .ok (a, ts1 ++ [.Semicolon]) ∧ ts1 <:+ ts) ∧
    (∀ ts a ts1, Parser.parse_logical_and fuel ts = .ok (a, ts1) →
      Parser.parse_logical_and fuel (ts ++ [.Semicolon]) = .ok (a, ts1 ++ [.Semicolon]) ∧
        ts1 <:+ ts) ∧
    (∀ e ts a ts1, Parser.parse_logical_and_loop fuel e ts = .ok (a, ts1) →
      Parser.parse_logical_and_loop fuel e (ts ++ [.Semicolon]) =
        .ok (a, ts1 ++ [.Semicolon]) ∧ ts1 <:+ ts) ∧
    (∀ ts a ts1, Parser.parse_equality fuel ts = .ok (a, ts1) →
      Parser.parse_equality fuel (ts ++ [.Semicolon]) = .ok (a, ts1 ++ [.Semicolon]) ∧
        ts1 <:+ ts) ∧
    (∀ e ts a ts1, Parser.parse_equality_loop fuel e ts = .ok (a, ts1) →
      Parser.parse_equality_loop fuel e (ts ++ [.Semicolon]) =
        .ok (a, ts1 ++ [.Semicolon]) ∧ ts1 <:+ ts) ∧
    (∀ ts a ts1, Parser.parse_comparison fuel ts = .ok (a, ts1) →
      Parser.parse_comparison fuel (ts ++ [.Semicolon]) = .ok (a, ts1 ++ [.Semicolon]) ∧
        ts1 <:+ ts) ∧
    (∀ e ts a ts1, Parser.parse_comparison_loop fuel e ts = .ok (a, ts1) →
      Parser.parse_comparison_loop fuel e (ts ++ [.Semicolon]) =
        .ok (a, ts1 ++ [.Semicolon]) ∧ ts1 <:+ ts) ∧
    (∀ ts a ts1, Parser.parse_term fuel ts = .ok (a, ts1) →
      Parser.parse_term fuel (ts ++ [.Semicolon]) = .ok (a, ts1 ++ [.Semicolon]) ∧
        ts1 <:+ ts) ∧
    (∀ e ts a ts1, Parser.parse_term_loop fuel e ts = .ok (a, ts1) →
      Parser.parse_term_loop fuel e (ts ++ [.Semicolon]) =
        .ok (a, ts1 ++ [.Semicolon]) ∧ ts1 <:+ ts) ∧
    (∀ ts a ts1, Parser.parse_factor fuel ts = .ok (a, ts1) →
      Parser.parse_factor fuel (ts ++ [.Semicolon]) = .ok (a, ts1 ++ [.Semicolon]) ∧
        ts1 <:+ ts) ∧
    (∀ e ts a ts1, Parser.parse_factor_loop fuel e ts = .ok (a, ts1) →
      Parser.parse_factor_loop fuel e (ts ++ [.Semicolon]) =
        .ok (a, ts1 ++ [.Semicolon]) ∧ ts1 <:+ ts) ∧
    (∀ ts a ts1, Parser.parse_unary fuel ts = .ok (a, ts1) →
      Parser.parse_unary fuel (ts ++ [.Semicolon]) = .ok (a, ts1 ++ [.Semicolon]) ∧
        ts1 <:+ ts) ∧
    (∀ ts a ts1, Parser.parse_primary fuel ts = .ok (a, ts1) →
      Parser.parse_primary fuel (ts ++ [.Semicolon]) = .ok (a, ts1 ++ [.Semicolon]) ∧
        ts1 <:+ ts) ∧
    (∀ args ts a ts1, Parser.parse_args_loop fuel ts args = .ok (a, ts1) →
      Parser.parse_args_loop fuel (ts ++ [.Semicolon]) args =
        .ok (a, ts1 ++ [.Semicolon]) ∧ ts1 <:+ ts) := by
  induction fuel with
  | zero =>
    refine ⟨?_, ?_, ?_, ?_, ?_, ?_, ?_, ?_, ?_, ?_, ?_, ?_, ?_, ?_, ?_, ?_, ?_, ?_⟩ <;>
      · intros
        simp_all [Parser.parse_stmt_no_semi, Parser.parse_let_decl_no_semi,
          Parser.parse_expr, Parser.parse_logical_or, Parser.parse_logical_or_loop,
          Parser.parse_logical_and, Parser.parse_logical_and_loop,
          Parser.parse_equality, Parser.parse_equality_loop,
          Parser.parse_comparison, Parser.parse_comparison_loop,
          Parser.parse_term, Parser.parse_term_loop,
          Parser.parse_factor, Parser.parse_factor_loop,
          Parser.parse_unary, Parser.parse_primary, Parser.parse_args_loop]
  | succ fuel ih =>
    obtain ⟨ih_stmt, ih_let, ih_expr, ih_or, ih_orl, ih_and, ih_andl, ih_eq, ih_eql,
      ih_cmp, ih_cmpl, ih_term, ih_terml, ih_fac, ih_facl, ih_un, ih_pr, ih_argsl⟩ := ih
    refine ⟨?_, ?_, ?_, ?_, ?_, ?_, ?_, ?_, ?_, ?_, ?_, ?_, ?_, ?_, ?_, ?_, ?_, ?_⟩
    · intro ts a ts1 h
      simp only [Parser.parse_stmt_no_semi] at h ⊢
      by_cases hp : Parser.peek ts = .Let
      · rw [if_pos hp] at h
        rw [if_pos ((peek_eq_iff_append_semi ts .Let (by decide) (by decide)).mpr hp)]
        exact ih_let ts a ts1 h
      · rw [if_neg hp] at h
        rw [if_neg (fun hh => hp ((peek_eq_iff_append_semi ts .Let (by decide)
          (by decide)).mp hh))]
        cases he : Parser.parse_expr fuel ts with
        | error e => rw [he] at h; exact absurd h (by simp)
        | ok p =>
          obtain ⟨e, ts2⟩ := p
          simp only [he] at h
          simp only [Except.ok.injEq, Prod.mk.injEq] at h
          obtain ⟨ha0, hts0⟩ := h
          subst ha0
          subst hts0
          obtain ⟨ha1, ha2⟩ := ih_expr ts e ts2 he
          simp only [ha1]
          exact ⟨by trivial, ha2⟩
    · intro ts a ts1 h
      simp only [Parser.parse_let_decl_no_semi, Parser.bump] at h ⊢
      cases hc : Parser.consume .Let ts with
      | error e => rw [hc] at h; exact absurd h (by simp)
      | ok tsa =>
        simp only [hc] at h
        have hc2 := consume_append_semi (by decide) hc
        simp only [hc2]
        have hdrop : tsa = ts.drop 1 := (consume_ok_inv hc).2
        cases hpk : Parser.peek tsa <;> simp only [hpk] at h <;>
          try exact Except.noConfusion h
        case Identifier name =>
          have hne : tsa ≠ [] := by
            intro hnil
            subst hnil
            exact Token.noConfusion hpk
          simp only [peek_append_of_ne_nil _ hne, hpk, drop_one_append _ hne]
          cases hce : Parser.consume .Equal (tsa.drop 1) with
          | error e => rw [hce] at h; exact absurd h (by simp)
          | ok tsb =>
            simp only [hce] at h
            have hce2 := consume_append_semi (by decide) hce
            simp only [hce2]
            cases he : Parser.parse_expr fuel tsb with
            | error e => rw [he] at h; exact absurd h (by simp)
            | ok p =>
              obtain ⟨value, tsc⟩ := p
              simp only [he] at h
              simp only [Except.ok.injEq, Prod.mk.injEq] at h
              obtain ⟨ha0, hts0⟩ := h
              subst ha0
              subst hts0
              obtain ⟨ha1, ha2⟩ := ih_expr tsb value tsc he
              simp only [ha1]
              refine ⟨by trivial, ?_⟩
              have h1 : tsb = (tsa.drop 1).drop 1 := (consume_ok_inv hce).2
              subst h1
              subst hdrop
              exact ha2.trans ((List.drop_suffix _ _).trans
                ((List.drop_suffix _ _).trans (List.drop_suffix _ _)))
    · intro ts a ts1 h
      simp only [Parser.parse_expr] at h ⊢
      exact ih_or ts a ts1 h
    · intro ts a ts1 h
      simp only [Parser.parse_logical_or] at h ⊢
      cases h1 : Parser.parse_logical_and fuel ts with
      | error e => rw [h1] at h; exact absurd h (by simp)
      | ok p =>
        obtain ⟨e, ts2⟩ := p
        simp only [h1] at h
        obtain ⟨ha1, ha2⟩ := ih_and ts e ts2 h1
        obtain ⟨hb1, hb2⟩ := ih_orl e ts2 a ts1 h
        simp only [ha1]
        exact ⟨hb1, hb2.trans ha2⟩
    · intro e0 ts a ts1 h
      simp only [Parser.parse_logical_or_loop, Parser.bump] at h ⊢
      by_cases hp : Parser.peek ts = .OrOr
      · have hne : ts ≠ [] := by
          intro hnil
          subst hnil
          exact Token.noConfusion hp
        rw [if_pos hp] at h
        cases h1 : Parser.parse_logical_and fuel (ts.drop 1) with
        | error e2 => rw [h1] at h; exact absurd h (by simp)
        | ok p =>
          obtain ⟨rhs, ts2⟩ := p
          simp only [h1] at h
          obtain ⟨ha1, ha2⟩ := ih_and (ts.drop 1) rhs ts2 h1
          obtain ⟨hb1, hb2⟩ := ih_orl (.BinaryOp (Parser.peek ts) e0 rhs) ts2 a ts1 h
          rw [peek_append_of_ne_nil _ hne, drop_one_append _ hne, if_pos hp]
          simp only [ha1]
          exact ⟨hb1, (hb2.trans ha2).trans (List.drop_suffix 1 ts)⟩
      · rw [if_neg hp] at h
        cases h
        refine ⟨?_, List.suffix_refl ts⟩
        rw [if_neg (fun hh => hp ((peek_eq_iff_append_semi ts .OrOr (by decide)
          (by decide)).mp hh))]
    · intro ts a ts1 h
      simp only [Parser.parse_logical_and] at h ⊢
      cases h1 : Parser.parse_equality fuel ts with
      | error e => rw [h1] at h; exact absurd h (by simp)
      | ok p =>
        obtain ⟨e, ts2⟩ := p
        simp only [h1] at h
        obtain ⟨ha1, ha2⟩ := ih_eq ts e ts2 h1
        obtain ⟨hb1, hb2⟩ := ih_andl e ts2 a ts1 h
        simp only [ha1]
        exact ⟨hb1, hb2.trans ha2⟩
    · intro e0 ts a ts1 h
      simp only [Parser.parse_logical_and_loop, Parser.bump] at h ⊢
      by_cases hp : Parser.peek ts = .AndAnd
      · have hne : ts ≠ [] := by
          intro hnil
          subst hnil
          exact Token.noConfusion hp
        rw [if_pos hp] at h
        cases h1 : Parser.parse_equality fuel (ts.drop 1) with
        | error e2 => rw [h1] at h; exact absurd h (by simp)
        | ok p =>
          obtain ⟨rhs, ts2⟩ := p
          simp only [h1] at h
          obtain ⟨ha1, ha2⟩ := ih_eq (ts.drop 1) rhs ts2 h1
          obtain ⟨hb1, hb2⟩ := ih_andl (.BinaryOp (Parser.peek ts) e0 rhs) ts2 a ts1 h
          rw [peek_append_of_ne_nil _ hne, drop_one_append _ hne, if_pos hp]
          simp only [ha1]
          exact ⟨hb1, (hb2.trans ha2).trans (List.drop_suffix 1 ts)⟩
      · rw [if_neg hp] at h
        cases h
        refine ⟨?_, List.suffix_refl ts⟩
        rw [if_neg (fun hh => hp ((peek_eq_iff_append_semi ts .AndAnd (by decide)
          (by decide)).mp hh))]
    · intro ts a ts1 h
      simp only [Parser.parse_equality] at h ⊢
      cases h1 : Parser.parse_comparison fuel ts with
      | error e => rw [h1] at h; exact absurd h (by simp)
      | ok p =>
        obtain ⟨e, ts2⟩ := p
        simp only [h1] at h
        obtain ⟨ha1, ha2⟩ := ih_cmp ts e ts2 h1
        obtain ⟨hb1, hb2⟩ := ih_eql e ts2 a ts1 h
        simp only [ha1]
        exact ⟨hb1, hb2.trans ha2⟩
    · intro e0 ts a ts1 h
      simp only [Parser.parse_equality_loop, Parser.bump] at h ⊢
      by_cases hp : Parser.peek ts = .EqualEqual ∨ Parser.peek ts = .NotEqual
      · have hne : ts ≠ [] := by
          intro hnil
          subst hnil
          rcases hp with hp | hp <;> exact Token.noConfusion hp
        rw [if_pos hp] at h
        cases h1 : Parser.parse_comparison fuel (ts.drop 1) with
        | error e2 => rw [h1] at h; exact absurd h (by simp)
        | ok p =>
          obtain ⟨rhs, ts2⟩ := p
          simp only [h1] at h
          obtain ⟨ha1, ha2⟩ := ih_cmp (ts.drop 1) rhs ts2 h1
          obtain ⟨hb1, hb2⟩ := ih_eql (.BinaryOp (Parser.peek ts) e0 rhs) ts2 a ts1 h
          rw [peek_append_of_ne_nil _ hne, drop_one_append _ hne, if_pos hp]
          simp only [ha1]
          exact ⟨hb1, (hb2.trans ha2).trans (List.drop_suffix 1 ts)⟩
      · rw [if_neg hp] at h
        cases h
        refine ⟨?_, List.suffix_refl ts⟩
        rw [if_neg (fun hh => hp ?_)]
        rcases hh with hh | hh
        · exact Or.inl ((peek_eq_iff_append_semi ts .EqualEqual (by decide)
            (by decide)).mp hh)
        · exact Or.inr ((peek_eq_iff_append_semi ts .NotEqual (by decide)
            (by decide)).mp hh)
    · intro ts a ts1 h
      simp only [Parser.parse_comparison] at h ⊢
      cases h1 : Parser.parse_term fuel ts with
      | error e => rw [h1] at h; exact absurd h (by simp)
      | ok p =>
        obtain ⟨e, ts2⟩ := p
        simp only [h1] at h
        obtain ⟨ha1, ha2⟩ := ih_term ts e ts2 h1
        obtain ⟨hb1, hb2⟩ := ih_cmpl e ts2 a ts1 h
        simp only [ha1]
        exact ⟨hb1, hb2.trans ha2⟩
    · intro e0 ts a ts1 h
      simp only [Parser.parse_comparison_loop, Parser.bump] at h ⊢
      by_cases hp : Parser.peek ts = .Less ∨ Parser.peek ts = .LessEqual ∨
        Parser.peek ts = .Greater ∨ Parser.peek ts = .GreaterEqual
      · have hne : ts ≠ [] := by
          intro hnil
          subst hnil
          rcases hp with hp | hp | hp | hp <;> exact Token.noConfusion hp
        rw [if_pos hp] at h
        cases h1 : Parser.parse_term fuel (ts.drop 1) with
        | error e2 => rw [h1] at h; exact absurd h (by simp)
        | ok p =>
          obtain ⟨rhs, ts2⟩ := p
          simp only [h1] at h
          obtain ⟨ha1, ha2⟩ := ih_term (ts.drop 1) rhs ts2 h1
          obtain ⟨hb1, hb2⟩ := ih_cmpl (.BinaryOp (Parser.peek ts) e0 rhs) ts2 a ts1 h
          rw [peek_append_of_ne_nil _ hne, drop_one_append _ hne, if_pos hp]
          simp only [ha1]
          exact ⟨hb1, (hb2.trans ha2).trans (List.drop_suffix 1 ts)⟩
      · rw [if_neg hp] at h
        cases h
        refine ⟨?_, List.suffix_refl ts⟩
        rw [if_neg (fun hh => hp ?_)]
        rcases hh with hh | hh | hh | hh
        · exact Or.inl ((peek_eq_iff_append_semi ts .Less (by decide)
            (by decide)).mp hh)
        · exact Or.inr (Or.inl ((peek_eq_iff_append_semi ts .LessEqual (by decide)
            (by decide)).mp hh))
        · exact Or.inr (Or.inr (Or.inl ((peek_eq_iff_append_semi ts .Greater (by decide)
            (by decide)).mp hh)))
        · exact Or.inr (Or.inr (Or.inr ((peek_eq_iff_append_semi ts .GreaterEqual
            (by decide) (by decide)).mp hh)))
    · intro ts a ts1 h
      simp only [Parser.parse_term] at h ⊢
      cases h1 : Parser.parse_factor fuel ts with
      | error e => rw [h1] at h; exact absurd h (by simp)
      | ok p =>
        obtain ⟨e, ts2⟩ := p
        simp only [h1] at h
        obtain ⟨ha1, ha2⟩ := ih_fac ts e ts2 h1
        obtain ⟨hb1, hb2⟩ := ih_terml e ts2 a ts1 h
        simp only [ha1]
        exact ⟨hb1, hb2.trans ha2⟩
    · intro e0 ts a ts1 h
      simp only [Parser.parse_term_loop, Parser.bump] at h ⊢
      by_cases hp : Parser.peek ts = .Plus ∨ Parser.peek ts = .Minus
      · have hne : ts ≠ [] := by
          intro hnil
          subst hnil
          rcases hp with hp | hp <;> exact Token.noConfusion hp
        rw [if_pos hp] at h
        cases h1 : Parser.parse_factor fuel (ts.drop 1) with
        | error e2 => rw [h1] at h; exact absurd h (by simp)
        | ok p =>
          obtain ⟨rhs, ts2⟩ := p
          simp only [h1] at h
          obtain ⟨ha1, ha2⟩ := ih_fac (ts.drop 1) rhs ts2 h1
          obtain ⟨hb1, hb2⟩ := ih_terml (.BinaryOp (Parser.peek ts) e0 rhs) ts2 a ts1 h
          rw [peek_append_of_ne_nil _ hne, drop_one_append _ hne, if_pos hp]
          simp only [ha1]
          exact ⟨hb1, (hb2.trans ha2).trans (List.drop_suffix 1 ts)⟩
      · rw [if_neg hp] at h
        cases h
        refine ⟨?_, List.suffix_refl ts⟩
        rw [if_neg (fun hh => hp ?_)]
        rcases hh with hh | hh
        · exact Or.inl ((peek_eq_iff_append_semi ts .Plus (by decide)
            (by decide)).mp hh)
        · exact Or.inr ((peek_eq_iff_append_semi ts .Minus (by decide)
            (by decide)).mp hh)
    · intro ts a ts1 h
      simp only [Parser.parse_factor] at h ⊢
      cases h1 : Parser.parse_unary fuel ts with
      | error e => rw [h1] at h; exact absurd h (by simp)
      | ok p =>
        obtain ⟨e, ts2⟩ := p
        simp only [h1] at h
        obtain ⟨ha1, ha2⟩ := ih_un ts e ts2 h1
        obtain ⟨hb1, hb2⟩ := ih_facl e ts2 a ts1 h
        simp only [ha1]
        exact ⟨hb1, hb2.trans ha2⟩
    · intro e0 ts a ts1 h
      simp only [Parser.parse_factor_loop, Parser.bump] at h ⊢
      by_cases hp : Parser.peek ts = .Star ∨ Parser.peek ts = .Slash ∨
        Parser.peek ts = .Percent
      · have hne : ts ≠ [] := by
          intro hnil
          subst hnil
          rcases hp with hp | hp | hp <;> exact Token.noConfusion hp
        rw [if_pos hp] at h
        cases h1 : Parser.parse_unary fuel (ts.drop 1) with
        | error e2 => rw [h1] at h; exact absurd h (by simp)
        | ok p =>
          obtain ⟨rhs, ts2⟩ := p
          simp only [h1] at h
          obtain ⟨ha1, ha2⟩ := ih_un (ts.drop 1) rhs ts2 h1
          obtain ⟨hb1, hb2⟩ := ih_facl (.BinaryOp (Parser.peek ts) e0 rhs) ts2 a ts1 h
          rw [peek_append_of_ne_nil _ hne, drop_one_append _ hne, if_pos hp]
          simp only [ha1]
          exact ⟨hb1, (hb2.trans ha2).trans (List.drop_suffix 1 ts)⟩
      · rw [if_neg hp] at h
        cases h
        refine ⟨?_, List.suffix_refl ts⟩
        rw [if_neg (fun hh => hp ?_)]
        rcases hh with hh | hh | hh
        · exact Or.inl ((peek_eq_iff_append_semi ts .Star (by decide)
            (by decide)).mp hh)
        · exact Or.inr (Or.inl ((peek_eq_iff_append_semi ts .Slash (by decide)
            (by decide)).mp hh))
        · exact Or.inr (Or.inr ((peek_eq_iff_append_semi ts .Percent (by decide)
            (by decide)).mp hh))
    · intro ts a ts1 h
      simp only [Parser.parse_unary, Parser.bump] at h ⊢
      by_cases hp : Parser.peek ts = .Minus ∨ Parser.peek ts = .Not
      · have hne : ts ≠ [] := by
          intro hnil
          subst hnil
          rcases hp with hp | hp <;> exact Token.noConfusion hp
        rw [if_pos hp] at h
        cases h1 : Parser.parse_unary fuel (ts.drop 1) with
        | error e2 => rw [h1] at h; exact absurd h (by simp)
        | ok p =>
          obtain ⟨e, ts2⟩ := p
          simp only [h1] at h
          simp only [Except.ok.injEq, Prod.mk.injEq] at h
          obtain ⟨ha0, hts0⟩ := h
          subst ha0
          subst hts0
          obtain ⟨ha1, ha2⟩ := ih_un (ts.drop 1) e ts2 h1
          rw [peek_append_of_ne_nil _ hne, drop_one_append _ hne, if_pos hp]
          simp only [ha1]
          exact ⟨by trivial, ha2.trans (List.drop_suffix 1 ts)⟩
      · rw [if_neg hp] at h
        have hp2 : ¬(Parser.peek (ts ++ [.Semicolon]) = .Minus ∨
            Parser.peek (ts ++ [.Semicolon]) = .Not) := by
          intro hh
          rcases hh with hh | hh
          · exact hp (Or.inl ((peek_eq_iff_append_semi ts .Minus (by decide)
              (by decide)).mp hh))
          · exact hp (Or.inr ((peek_eq_iff_append_semi ts .Not (by decide)
              (by decide)).mp hh))
        rw [if_neg hp2]
        exact ih_pr ts a ts1 h
    · intro ts a ts1 h
      simp only [Parser.parse_primary, Parser.bump] at h ⊢
      cases hpk : Parser.peek ts <;> simp only [hpk] at h <;>
        try exact Except.noConfusion h
      case Number n =>
        cases h
        have hne : ts ≠ [] := by
          intro hnil
          subst hnil
          exact Token.noConfusion hpk
        simp only [peek_append_of_ne_nil _ hne, hpk, drop_one_append _ hne]
        exact ⟨trivial, List.drop_suffix 1 ts⟩
      case Bool b =>
        cases h
        have hne : ts ≠ [] := by
          intro hnil
          subst hnil
          exact Token.noConfusion hpk
        simp only [peek_append_of_ne_nil _ hne, hpk, drop_one_append _ hne]
        exact ⟨trivial, List.drop_suffix 1 ts⟩
      case Identifier name =>
        have hne : ts ≠ [] := by
          intro hnil
          subst hnil
          exact Token.noConfusion hpk
        simp only [peek_append_of_ne_nil _ hne, hpk, drop_one_append _ hne]
        by_cases hlp : Parser.peek (ts.drop 1) = .LeftParen
        · rw [if_pos hlp] at h
          rw [if_pos ((peek_eq_iff_append_semi _ .LeftParen (by decide)
            (by decide)).mpr hlp)]
          cases hc : Parser.consume .LeftParen (ts.drop 1) with
          | error e => rw [hc] at h; exact absurd h (by simp)
          | ok ts2 =>
            simp only [hc] at h
            have hc2 := consume_append_semi (by decide) hc
            simp only [hc2]
            have hts2 : ts2 = (ts.drop 1).drop 1 := (consume_ok_inv hc).2
            by_cases hrp : Parser.peek ts2 = .RightParen
            · simp only [if_pos hrp] at h
              simp only [if_pos ((peek_eq_iff_append_semi _ .RightParen (by decide)
                (by decide)).mpr hrp)]
              cases hcr : Parser.consume .RightParen ts2 with
              | error e => rw [hcr] at h; exact absurd h (by simp)
              | ok ts3 =>
                simp only [hcr] at h
                simp only [Except.ok.injEq, Prod.mk.injEq] at h
                obtain ⟨ha0, hts0⟩ := h
                subst ha0
                subst hts0
                have hcr2 := consume_append_semi (by decide) hcr
                simp only [hcr2]
                refine ⟨by trivial, ?_⟩
                have h3 : ts3 = ts2.drop 1 := (consume_ok_inv hcr).2
                subst h3
                subst hts2
                exact (List.drop_suffix _ _).trans ((List.drop_suffix _ _).trans
                  (List.drop_suffix _ _))
            · simp only [if_neg hrp] at h
              have hrp2 : ¬ Parser.peek (ts2 ++ [.Semicolon]) = .RightParen :=
                fun hh => hrp ((peek_eq_iff_append_semi _ .RightParen (by decide)
                  (by decide)).mp hh)
              simp only [if_neg hrp2]
              cases ha : Parser.parse_args_loop fuel ts2 [] with
              | error e => rw [ha] at h; exact absurd h (by simp)
              | ok p =>
                obtain ⟨args, ts3⟩ := p
                simp only [ha] at h
                obtain ⟨haa1, haa2⟩ := ih_argsl [] ts2 args ts3 ha
                simp only [haa1]
                cases hcr : Parser.consume .RightParen ts3 with
                | error e => rw [hcr] at h; exact absurd h (by simp)
                | ok ts4 =>
                  simp only [hcr] at h
                  simp only [Except.ok.injEq, Prod.mk.injEq] at h
                  obtain ⟨ha0, hts0⟩ := h
                  subst ha0
                  subst hts0
                  have hcr2 := consume_append_semi (by decide) hcr
                  simp only [hcr2]
                  refine ⟨by trivial, ?_⟩
                  have h4 : ts4 = ts3.drop 1 := (consume_ok_inv hcr).2
                  subst h4
                  subst hts2
                  exact ((List.drop_suffix _ _).trans haa2).trans
                    ((List.drop_suffix _ _).trans (List.drop_suffix _ _))
        · rw [if_neg hlp] at h
          cases h
          have hlp2 : ¬ Parser.peek (ts.drop 1 ++ [.Semicolon]) = .LeftParen :=
            fun hh => hlp ((peek_eq_iff_append_semi _ .LeftParen (by decide)
              (by decide)).mp hh)
          rw [if_neg hlp2]
          exact ⟨rfl, List.drop_suffix 1 ts⟩
      case LeftParen =>
        have hne : ts ≠ [] := by
          intro hnil
          subst hnil
          exact Token.noConfusion hpk
        simp only [peek_append_of_ne_nil _ hne, hpk, drop_one_append _ hne]
        cases he : Parser.parse_expr fuel (ts.drop 1) with
        | error e => rw [he] at h; exact absurd h (by simp)
        | ok p =>
          obtain ⟨e, ts2⟩ := p
          simp only [he] at h
          obtain ⟨he1, he2⟩ := ih_expr (ts.drop 1) e ts2 he
          simp only [he1]
          cases hcr : Parser.consume .RightParen ts2 with
          | error e2 => rw [hcr] at h; exact absurd h (by simp)
          | ok ts3 =>
            simp only [hcr] at h
            simp only [Except.ok.injEq, Prod.mk.injEq] at h
            obtain ⟨ha0, hts0⟩ := h
            subst ha0
            subst hts0
            have hcr2 := consume_append_semi (by decide) hcr
            simp only [hcr2]
            refine ⟨by trivial, ?_⟩
            have h3 : ts3 = ts2.drop 1 := (consume_ok_inv hcr).2
            subst h3
            exact ((List.drop_suffix _ _).trans he2).trans (List.drop_suffix 1 ts)
    · intro args ts a ts1 h
      simp only [Parser.parse_args_loop] at h ⊢
      cases he : Parser.parse_expr fuel ts with
      | error e => rw [he] at h; exact absurd h (by simp)
      | ok p =>
        obtain ⟨e, ts2⟩ := p
        simp only [he] at h
        obtain ⟨he1, he2⟩ := ih_expr ts e ts2 he
        simp only [he1]
        by_cases hp : Parser.peek ts2 = .Comma
        · rw [if_pos hp] at h
          rw [if_pos ((peek_eq_iff_append_semi _ .Comma (by decide)
            (by decide)).mpr hp)]
          cases hc : Parser.consume .Comma ts2 with
          | error e2 => rw [hc] at h; exact absurd h (by simp)
          | ok ts3 =>
            simp only [hc] at h
            have hc2 := consume_append_semi (by decide) hc
            simp only [hc2]
            obtain ⟨hb1, hb2⟩ := ih_argsl (args ++ [e]) ts3 a ts1 h
            refine ⟨hb1, ?_⟩
            have h3 : ts3 = ts2.drop 1 := (consume_ok_inv hc).2
            subst h3
            exact (hb2.trans (List.drop_suffix _ _)).trans he2
        · rw [if_neg hp] at h
          cases h
          rw [if_neg (fun hh => hp ((peek_eq_iff_append_semi _ .Comma (by decide)
            (by decide)).mp hh))]
          exact ⟨rfl, he2⟩

theorem getLast?_of_suffix {l1 l2 : List Token} (h : l1 <:+ l2) (hne : l1 ≠ []) :
    l2.getLast? = l1.getLast? := by
  obtain ⟨t, rfl⟩ := h
  exact List.getLast?_append_of_ne_nil t hne

/-- Appending one trailing semicolon to a token stream that does not already
end in a semicolon preserves a successful run of the `parse_program` loop:
the extra semicolon is consumed as a separator just before the final `Eof`
check. -/
theorem parse_program_loop_extend_semi (fuel : Nat) :
    ∀ ts acc prog, ts ≠ [] → ts.getLast? ≠ some .Semicolon →
      Parser.parse_program_loop fuel ts acc = .ok prog →
      Parser.parse_program_loop fuel (ts ++ [.Semicolon]) acc = .ok prog := by
  induction fuel with
  | zero =>
    intro ts acc prog _ _ h
    exact absurd h (by simp [Parser.parse_program_loop])
  | succ fuel ih =>
    intro ts acc prog hne hlast h
    simp only [Parser.parse_program_loop] at h ⊢
    rw [peek_append_of_ne_nil _ hne]
    by_cases hp : Parser.peek ts = .Eof
    · rw [if_pos hp] at h
      rw [if_pos hp]
      exact h
    · rw [if_neg hp] at h
      rw [if_neg hp]
      cases h1 : Parser.parse_stmt_no_semi fuel ts with
      | error e => rw [h1] at h; exact absurd h (by simp)
      | ok p =>
        obtain ⟨stmt, ts1⟩ := p
        simp only [h1] at h
        obtain ⟨hs1, hs2⟩ := (parser_extend_semi fuel).1 ts stmt ts1 h1
        simp only [hs1]
        by_cases hp1 : Parser.peek ts1 = .Eof
        · rw [if_pos hp1] at h
          by_cases hnil : ts1 = []
          · subst hnil
            simp only [List.nil_append]
            rw [if_neg (by decide)]
            rw [show Parser.consume .Semicolon [.Semicolon] = .ok [] from rfl]
            exact h
          · rw [peek_append_of_ne_nil _ hnil, if_pos hp1]
            have hlast1 : ts1.getLast? ≠ some .Semicolon := by
              rw [← getLast?_of_suffix hs2 hnil]
              exact hlast
            exact ih ts1 _ prog hnil hlast1 h
        · rw [if_neg hp1] at h
          cases hc : Parser.consume .Semicolon ts1 with
          | error e => rw [hc] at h; exact absurd h (by simp)
          | ok ts2 =>
            simp only [hc] at h
            have hp1' := (consume_ok_inv hc).1
            have hd : ts2 = ts1.drop 1 := (consume_ok_inv hc).2
            have hne1 : ts1 ≠ [] := by
              intro hnil
              subst hnil
              exact hp1 rfl
            have hlast1 : ts1.getLast? ≠ some .Semicolon := by
              rw [← getLast?_of_suffix hs2 hne1]
              exact hlast
            have hne2 : ts2 ≠ [] := by
              intro hnil
              cases ts1 with
              | nil => exact hne1 rfl
              | cons t ts1' =>
                have ht : t = Token.Semicolon := hp1'
                have hts1' : ts1' = [] := by
                  rw [hd] at hnil
                  exact hnil
                subst hts1'
                subst ht
                exact hlast1 rfl
            have hlast2 : ts2.getLast? ≠ some .Semicolon := by
              rw [hd]
              have hsfx : ts1.drop 1 <:+ ts1 := List.drop_suffix 1 ts1
              rw [← getLast?_of_suffix hsfx (hd ▸ hne2)]
              exact hlast1
            rw [peek_append_of_ne_nil _ hne1, if_neg hp1]
            have hc2 := consume_append_semi (by decide) hc
            simp only [hc2]
            exact ih ts2 _ prog hne2 hlast2 h

/-- Claim C2, amended: a trailing semicolon after the last statement is
*accepted*, not rejected — if a token stream that does not itself end in a
semicolon parses to a program with at least one statement, then the same
stream followed by one trailing semicolon (and then `Eof`) parses to the
same program.  Semicolons remain required between any two statements: two
adjacent statements with no semicolon between them are an `ExpectedToken`
parse error. -/
theorem c2_trailing_semicolon_behaviour :
    (∀ fuel ts prog, Parser.parse_program fuel ts = .ok prog →
      prog.stmts ≠ [] → ts.getLast? ≠ some .Semicolon →
      Parser.parse_program fuel (ts ++ [.Semicolon]) = .ok prog) ∧
    (∀ n m : Int, Parser.parse_program 20 [.Number n, .Number m] =
      .error (.ExpectedToken "Semicolon" (Token.Number m).fmt)) := by
  constructor
  · intro fuel ts prog h hne hlast
    have hts : ts ≠ [] := by
      intro hnil
      subst hnil
      cases fuel with
      | zero =>
        exact absurd h (by simp [Parser.parse_program, Parser.parse_program_loop])
      | succ fuel =>
        have hpr : prog = ⟨[]⟩ := by
          simp only [Parser.parse_program, Parser.parse_program_loop] at h
          rw [if_pos (show Parser.peek [] = Token.Eof from rfl)] at h
          cases h
          rfl
        subst hpr
        exact hne rfl
    exact parse_program_loop_extend_semi fuel ts [] prog hts hlast h
  · intro n m
    rfl

/-! ## Witnesses -/

/-- Witness for C1 at a concrete two-statement program. -/
theorem c1_witness :
    compile_and_run ⟨[.LetDecl "x" (.Number 5), .ExprStmt (.Number 7)]⟩ =
      some (7, []) := by
  have h := c1_compile_and_run_last_value.2 [.LetDecl "x" (.Number 5)]
    (.ExprStmt (.Number 7)) [("x", 5)] (some 5) [] [("x", 5)] 7 [] rfl rfl
  simpa using h

/-- Witness for C2: `1 ;` parses to the program `[1]`, and `4 5` without a
separating semicolon is a parse error. -/
theorem c2_witness :
    Parser.parse_program 20 ([.Number 1] ++ [.Semicolon]) =
      .ok ⟨[.ExprStmt (.Number 1)]⟩ ∧
    Parser.parse_program 20 [.Number 4, .Number 5] =
      .error (.ExpectedToken "Semicolon" (Token.Number 5).fmt) := by
  constructor
  · exact c2_trailing_semicolon_behaviour.1 20 [.Number 1] ⟨[.ExprStmt (.Number 1)]⟩
      rfl (by simp) (by decide)
  · exact c2_trailing_semicolon_behaviour.2 4 5

/-- Witness for C4: with a false left operand, the right print still fires. -/
theorem c4_witness :
    codegen_expr [] (.BinaryOp .AndAnd (.FunctionCall "print" [.Number 0])
        (.FunctionCall "print" [.Number 5])) = some (0, [0, 5]) := by
  have h := (c4_no_short_circuit [] (.Number 0) (.Number 5) 0 5 [] [] rfl rfl).1
  simpa using h

/-- Witness for C5 at the same-tier pair `*`, `/`. -/
theorem c5_witness :
    Parser.parse_expr 20 [.Number 7, .Star, .Number 8, .Slash, .Number 9] =
      .ok (.BinaryOp .Slash (.BinaryOp .Star (.Number 7) (.Number 8)) (.Number 9),
        []) :=
  (c5_left_assoc_and_precedence.1 7 8 9 .Star .Slash 5 5 rfl rfl).1 (le_refl 5)

/-- Witness for C6 at `2 < 3` and the literal `true`. -/
theorem c6_witness :
    ((1 : Int) = 0 ∨ (1 : Int) = 1) ∧ codegen_expr [] (.Bool true) = some (1, []) :=
  ⟨c6_booleans_are_zero_or_one.1 [] .Less (.Number 2) (.Number 3) 1 [] (by decide)
    (by decide), c6_booleans_are_zero_or_one.2.2 [] true⟩

/-- Witness for C7 at the input `42`. -/
theorem c7_witness : Lexer.next ['4', '2'] = some (.Number 42, []) := by
  have h := (c7_digit_run_value_and_overflow ['4', '2'] [] (by decide) (by decide)
    (by simp)).1 (by decide)
  simpa [digits_val] using h

/-- Witness for C8 (amended) at the ASCII identifier `ab1_` followed by a
space. -/
theorem c8_witness :
    Lexer.next ('a' :: ['b', '1', '_'] ++ [' ']) = some (.Identifier "ab1_", [' ']) := by
  have h := c8_ascii_identifier_runs 'a' ['b', '1', '_'] [' '] (by decide) (by decide)
    (by
      intro d hd
      simp only [List.head?] at hd
      cases hd
      exact ⟨by decide, by decide⟩)
  rw [h]
  decide

/-- Witness for C9 at the parse of `1 + 2`. -/
theorem c9_witness :
    program_ops_valid ⟨[.ExprStmt (.BinaryOp .Plus (.Number 1) (.Number 2))]⟩ = true :=
  c9_parser_operator_invariant 20 [.Number 1, .Plus, .Number 2]
    ⟨[.ExprStmt (.BinaryOp .Plus (.Number 1) (.Number 2))]⟩ rfl

/-- Witness for C10: `INT64_MAX + 1` wraps to `INT64_MIN`. -/
theorem c10_witness :
    codegen_expr [] (.BinaryOp .Plus (.Number 9223372036854775807) (.Number 1)) =
      some (-9223372036854775808, []) := by
  have h := (c10_twos_complement_wrapping.2.1 9223372036854775807 1
    ⟨by norm_num, by norm_num⟩ ⟨by norm_num, by norm_num⟩).1
  rw [h]
  decide
